import Mathlib

/-!
Verification development for the concurrent ordered-index core
(`src/treeindex/node.rs`): a B+-tree-style `Node` structure with
recursive search/insert, a leaf-split protocol staged through two
reservation slots, and a three-way error protocol
(`Duplicated`/`Full`/`Retry`).

Embedding conventions:
* The fixed-capacity sorted array `Leaf<K, V>` lives in a module that is
  not part of the sources here; its contract is modelled from the spec
  (each such definition is marked `Modelled from the spec:`).
* A `Leaf K V` is a strictly-sorted association list of at most
  `ARRAY_SIZE` entries; the atomics of the original become plain fields,
  and executions are sequential: a compare-and-swap on a staging slot
  fails exactly when the slot is already non-null.
* Recursive tree operations take an explicit `fuel : Nat` bounding the
  recursion depth (the source remarks that its recursion is unbounded
  and may overflow the stack); `none` means the bound was hit.
* `Node.split_leaf` additionally returns a trace: the contents of the two
  staged leaves after the distribute/place steps, and the list of
  destruction events (which pointer was retired, and whether it was
  handed to `defer_destroy` or dropped synchronously via `into_owned`).
-/

/-- Capacity of a `Leaf`.  Modelled from the spec: the capacity `C` is
fixed for the object's lifetime; the concrete value is not fixed by the
spec, so a small representative constant is used. -/
def ARRAY_SIZE : Nat := 8

/-- Modelled from the spec: a `Leaf` is a fixed-capacity associative
array sorted ascending by unique key.  It is represented as the list of
its entries in key order; the operations below maintain strict
sortedness and the capacity bound. -/
abbrev Leaf (K V : Type) : Type := List (K × V)

variable {K V α : Type}

/-- Modelled from the spec: `min_ge(key)` returns the first entry whose
key is greater than or equal to the given key (a bucket locator, not an
exact lookup). -/
def Leaf.min_ge [LinearOrder K] (l : Leaf K α) (key : K) : Option (K × α) :=
  l.find? (fun e => key ≤ e.1)

/-- Modelled from the spec: `full()` — the leaf has reached its fixed
capacity. -/
def Leaf.full (l : Leaf K α) : Bool :=
  ARRAY_SIZE ≤ l.length

/-- Modelled from the spec: `max_key()` — the greatest key, i.e. the last
key of the sorted entry list. -/
def Leaf.max_key (l : Leaf K α) : Option K :=
  l.getLast?.map Prod.fst

/-- Sorted insertion position: the new entry is placed before the first
entry with a key that is not smaller.  (Helper for `Leaf.insert`.) -/
def Leaf.insertLoc [LinearOrder K] : Leaf K α → K → α → Leaf K α
  | [], k, v => [(k, v)]
  | e :: t, k, v => if k ≤ e.1 then (k, v) :: e :: t else e :: Leaf.insertLoc t k v

/-- Modelled from the spec: `insert(key, value)` fails if the key is
already present or the leaf is full, otherwise adds the entry in sorted
position.  The result mirrors the calling convention visible in
`node.rs`: `none` on success; `some (entry, true)` when the key is a
duplicate; `some (entry, false)` when the leaf is full.  The updated
leaf is returned alongside (the original mutates in place). -/
def Leaf.insert [LinearOrder K] (l : Leaf K α) (k : K) (v : α) :
    Option ((K × α) × Bool) × Leaf K α :=
  if l.any (fun e => e.1 = k) then (some ((k, v), true), l)
  else if Leaf.full l then (some ((k, v), false), l)
  else (none, Leaf.insertLoc l k v)

/-- Modelled from the spec: `distribute(dstLow, dstHigh)` moves roughly
half of the entries into each destination, order-preserving, the low
leaf receiving the smaller half, and reports per-destination counts. -/
def Leaf.distribute (l : Leaf K V) : (Leaf K V × Leaf K V) × Nat × Nat :=
  ((l.take (l.length / 2), l.drop (l.length / 2)),
   l.length / 2, l.length - l.length / 2)

/-- Modelled from the spec: a `LeafScanner` is a cursor over a `Leaf`;
`cur` is the entry it currently points to and `rest` the entries still
to be visited. -/
structure LeafScanner (K α : Type) where
  cur : Option (K × α)
  rest : List (K × α)
deriving DecidableEq

/-- Modelled from the spec: a scanner that has not started iterating. -/
def LeafScanner.new (l : Leaf K α) : LeafScanner K α := ⟨none, l⟩

/-- Modelled from the spec: `LeafScanner::from(key, leaf)` constructs a
scanner positioned on the exact-match entry for `key` (its `get` is
`none` when the key is absent); iterating continues with the entries
after `key`.  (Source name: `from`, a reserved word here.) -/
def LeafScanner.fromKey [LinearOrder K] (key : K) (l : Leaf K α) : LeafScanner K α :=
  ⟨l.find? (fun e => e.1 = key), l.dropWhile (fun e => e.1 ≤ key)⟩

/-- Modelled from the spec: advancing the cursor. -/
def LeafScanner.next : LeafScanner K α → Option (K × α) × LeafScanner K α
  | ⟨_, []⟩ => (none, ⟨none, []⟩)
  | ⟨_, e :: t⟩ => (some e, ⟨some e, t⟩)

/-- Modelled from the spec: `get()` peeks the current entry without
advancing. -/
def LeafScanner.get (s : LeafScanner K α) : Option (K × α) := s.cur

/-- `Error` from `node.rs` (lines 8-15): the three-way signal propagated
up the insert recursion. -/
inductive Error (K V : Type) where
  | Duplicated : K × V → Error K V
  | Full : K × V → Option K → Error K V
  | Retry : K × V → Error K V
deriving DecidableEq

/-- `Result<(), Error<K, V>>` of the original, as a first-class
inductive so that results are decidably comparable. -/
inductive InsertResult (K V : Type) where
  | ok : InsertResult K V
  | err : Error K V → InsertResult K V
deriving DecidableEq

/-- `Node` from `node.rs` (lines 17-38): one tree level, polymorphic
over `InternalNode` (children are nodes) and `LeafNode` (children are
data leaves).  Each shape carries the lazily grown `bounded_children`
routing index, the nullable `unbounded_child`, the two split-staging
slots `reserved_low_key` / `reserved_high_key`, and the `floor` (height
above the data level).  The `side_link` field is omitted: the sources
never store a non-null value into it. -/
inductive Node (K V : Type) where
  | internalNode (bounded_children : List (K × Node K V))
      (unbounded_child : Option (Node K V))
      (reserved_low_key reserved_high_key : Option (Node K V))
      (floor : Nat)
  | leafNode (bounded_children : Leaf K (Leaf K V))
      (unbounded_child : Option (Leaf K V))
      (reserved_low_key reserved_high_key : Option (Leaf K V))
      (floor : Nat)

/-- `Node::new(floor)` (lines 41-61): an `InternalNode` when
`floor > 0`, otherwise a `LeafNode`; all children and staging slots
start null. -/
def Node.new (floor : Nat) : Node K V :=
  if 0 < floor then .internalNode [] none none none floor
  else .leafNode [] none none none floor

/-- The `floor` field of either shape. -/
def Node.floorOf : Node K V → Nat
  | .internalNode _ _ _ _ f => f
  | .leafNode _ _ _ _ f => f

/-- Whether the node is an `InternalNode`. -/
def Node.isInternal : Node K V → Bool
  | .internalNode _ _ _ _ _ => true
  | .leafNode _ _ _ _ _ => false

/-- Replaces the value stored under the first occurrence of key `k`
(writing through the alias the original code holds into the bucket
array). -/
def updateByKey [DecidableEq K] : Leaf K α → K → α → Leaf K α
  | [], _, _ => []
  | e :: t, k, v => if e.1 = k then (k, v) :: t else e :: updateByKey t k v

/-- How a retired pointer was destroyed. -/
inductive DestroyMode where
  | deferred
  | immediate
deriving DecidableEq

/-- Which pointer `split_leaf` destroyed: the superseded full leaf, the
unused sibling (high-key) leaf of a degenerate split, or a freshly
staged leaf released when a staging-slot claim failed. -/
inductive Destroyed (K V : Type) where
  | fullLeaf : Leaf K V → Destroyed K V
  | sibling : Leaf K V → Destroyed K V
  | staging : Leaf K V → Destroyed K V
deriving DecidableEq

/-- Result record of a `Node::split_leaf` call: the outcome `res`, the
new contents of the bucket array / unbounded slot / two staging slots,
plus the trace fields `low_staged` / `high_staged` (contents of the two
staged leaves after the distribute and place steps, lines 263-287) and
`events` (every destruction performed, in program order, tagged with how
it was performed). -/
structure SplitOut (K V : Type) where
  res : InsertResult K V
  bounded : Leaf K (Leaf K V)
  unbounded : Option (Leaf K V)
  rlow : Option (Leaf K V)
  rhigh : Option (Leaf K V)
  low_staged : Leaf K V
  high_staged : Leaf K V
  events : List (Destroyed K V × DestroyMode)
deriving DecidableEq

/-- The leaf the `full_leaf` pointer argument of `split_leaf` aliases:
the bucket with key `mk` inside the bucket array when
`full_leaf_max_key = some mk`, the unbounded slot when it is `none`. -/
def resolveFullLeaf [LinearOrder K] (leaf_array : Leaf K (Leaf K V))
    (uc : Option (Leaf K V)) (full_leaf_max_key : Option K) : Leaf K V :=
  match full_leaf_max_key with
  | some mk => ((leaf_array.find? (fun b => b.1 = mk)).map (fun b => b.2)).getD []
  | none => uc.getD []

/-- `Node::split_leaf` (lines 237-334).  Claims both staging slots by
compare-and-swap (sequentially: a claim fails exactly when the slot is
already non-null), distributes the full leaf into the two staged leaves,
places the overflow entry, and publishes by overflow location.  Returns
`none` for the panicking `unwrap` at line 312 (an empty low leaf on the
non-degenerate path), which no reachable call performs. -/
def Node.split_leaf [LinearOrder K] (entry : K × V)
    (leaf_array : Leaf K (Leaf K V)) (uc : Option (Leaf K V))
    (full_leaf_max_key : Option K)
    (low_key high_key : Option (Leaf K V)) : Option (SplitOut K V) :=
  match low_key with
  | some l =>
    -- line 254: the low-slot CAS failed; nothing was claimed
    some ⟨.err (.Retry entry), leaf_array, uc, some l, high_key, [], [], []⟩
  | none =>
    match high_key with
    | some h =>
      -- lines 258-261: the high-slot CAS failed; release the claimed low
      -- slot and drop the freshly allocated (still empty) leaf it held
      some ⟨.err (.Retry entry), leaf_array, uc, none, some h, [], [],
        [(.staging [], .immediate)]⟩
    | none =>
      let full_leaf := resolveFullLeaf leaf_array uc full_leaf_max_key
      -- lines 264-270: copy entries to the newly allocated leaves
      let d := Leaf.distribute full_leaf
      let low0 := d.1.1
      let high0 := d.1.2
      let cnt2 := d.2.2
      -- lines 272-287: insert the given entry
      let placed :=
        if cnt2 = 0 ∨ (Leaf.min_ge low0 entry.1).isSome then
          ((Leaf.insert low0 entry.1 entry.2).2, high0)
        else
          (low0, (Leaf.insert high0 entry.1 entry.2).2)
      let low1 := placed.1
      let high1 := placed.2
      match full_leaf_max_key with
      | none =>
        -- lines 289-292: overflow in the unbounded slot: report Full
        some ⟨.err (.Full entry none), leaf_array, uc,
          some low1, some high1, low1, high1, []⟩
      | some mk =>
        if cnt2 = 0 then
          -- lines 295-310: degenerate split; swap the full slot to the low
          -- leaf, defer-destroy the old leaf, drop the unused sibling,
          -- clear both staging slots
          some ⟨.ok, updateByKey leaf_array mk low1, uc, none, none,
            low1, high1,
            [(.fullLeaf full_leaf, .deferred), (.sibling high1, .immediate)]⟩
        else
          match Leaf.max_key low1 with
          | none => none
          | some mk2 =>
            -- lines 312-319: register the low leaf as a new bucket
            let ins := Leaf.insert leaf_array mk2 low1
            if ins.1.isSome then
              some ⟨.err (.Full entry (some mk)), leaf_array, uc,
                some low1, some high1, low1, high1, []⟩
            else
              -- lines 321-332: swap the full slot to the high leaf,
              -- defer-destroy the old leaf, clear the low staging slot
              some ⟨.ok, updateByKey ins.2 mk high1, uc, none, some high1,
                low1, high1, [(.fullLeaf full_leaf, .deferred)]⟩

/-- `Node::handle_result` (lines 539-561): normalizes a child call's
outcome at the parent.  `Ok` propagates; `Duplicated` and `Retry`
propagate unchanged; `Full` hits the `[TODO]` stub and is turned into
`Ok(())`, discarding the outcome.  The `child_node` argument of the
original is kept but, like there, never used. -/
def Node.handle_result (result : InsertResult K V)
    (child_node : Option (Node K V)) : InsertResult K V :=
  match result with
  | .ok => .ok
  | .err e =>
    match e with
    | .Duplicated _ => .err e
    | .Full _ _ => .ok
    | .Retry _ => .err e

/-- `Node::insert` (lines 125-235), with explicit recursion fuel.  The
`loop` of the original re-runs after lazily appending a bucket; that
re-run is modelled as a recursive call on the node with the bucket
appended (one fuel unit per loop iteration or level descent). -/
def Node.insert [LinearOrder K] :
    Nat → Node K V → K → V → Option (InsertResult K V × Node K V)
  | 0, _, _, _ => none
  | fuel + 1, .internalNode bc uc rl rh floor, key, value =>
    match Leaf.min_ge bc key with
    | some (mk, child) =>
      -- lines 134-137: recurse into the covering bucket's child
      match Node.insert fuel child key value with
      | none => none
      | some (res, child') =>
        some (Node.handle_result res (some child'),
          Node.internalNode (updateByKey bc mk child') uc rl rh floor)
    | none =>
      if Leaf.full bc then
        -- lines 150-163: fall through to the unbounded child,
        -- materializing it when null
        match Node.insert fuel
            (match uc with | some t => t | none => Node.new (floor - 1))
            key value with
        | none => none
        | some (res, tail') =>
          some (Node.handle_result res (some tail'),
            Node.internalNode bc (some tail') rl rh floor)
      else
        -- lines 138-145: lazily append an empty bucket keyed by the
        -- inserted key, then re-run the loop
        Node.insert fuel
          (Node.internalNode (Leaf.insert bc key (Node.new (floor - 1))).2
            uc rl rh floor) key value
  | fuel + 1, .leafNode bc uc rl rh floor, key, value =>
    match Leaf.min_ge bc key with
    | some (mk, leaf) =>
      -- lines 172-192: hand the entry to the selected data leaf
      match Leaf.insert leaf key value with
      | (none, leaf') =>
        some (.ok, Node.leafNode (updateByKey bc mk leaf') uc rl rh floor)
      | (some (e, true), _) =>
        some (.err (.Duplicated e), Node.leafNode bc uc rl rh floor)
      | (some (e, false), _) =>
        match Node.split_leaf e bc uc (some mk) rl rh with
        | none => none
        | some out =>
          some (out.res, Node.leafNode out.bounded out.unbounded
            out.rlow out.rhigh floor)
    | none =>
      if Leaf.full bc then
        -- lines 203-232: fall through to the unbounded data leaf,
        -- materializing it when null
        let tail := match uc with | some t => t | none => ([] : Leaf K V)
        match Leaf.insert tail key value with
        | (none, tail') =>
          some (.ok, Node.leafNode bc (some tail') rl rh floor)
        | (some (e, true), _) =>
          some (.err (.Duplicated e), Node.leafNode bc (some tail) rl rh floor)
        | (some (e, false), _) =>
          match Node.split_leaf e bc (some tail) none rl rh with
          | none => none
          | some out =>
            some (out.res, Node.leafNode out.bounded out.unbounded
              out.rlow out.rhigh floor)
      else
        -- lines 193-198: lazily append an empty bucket keyed by the
        -- inserted key, then re-run the loop
        Node.insert fuel
          (Node.leafNode (Leaf.insert bc key ([] : Leaf K V)).2 uc rl rh floor)
          key value

/-- `LeafNodeScanner` (lines 623-628): cursor over a `LeafNode`'s
ordered sequence, wrapping an iterator over the bucket array
(`node_scanner`) and one over the currently visited leaf
(`leaf_scanner`). -/
structure LeafNodeScanner (K V : Type) where
  leaf_node : Node K V
  node_scanner : Option (LeafScanner K (Leaf K V))
  leaf_scanner : Option (LeafScanner K V)

/-- `LeafNodeScanner::new` (lines 631-638). -/
def LeafNodeScanner.new (n : Node K V) : LeafNodeScanner K V := ⟨n, none, none⟩

/-- `LeafNodeScanner::from` (lines 640-652): positioned into the given
leaf at the exact-match entry for `key`. -/
def LeafNodeScanner.fromKey [LinearOrder K] (key : K) (n : Node K V)
    (leaf : Leaf K V) : LeafNodeScanner K V :=
  ⟨n, none, some (LeafScanner.fromKey key leaf)⟩

/-- `LeafNodeScanner::get` (lines 664-670). -/
def LeafNodeScanner.get (s : LeafNodeScanner K V) : Option (K × V) :=
  match s.leaf_scanner with
  | some ls => LeafScanner.get ls
  | none => none

/-- `Node::search` (lines 63-119), with recursion fuel.  Routes by
`min_ge` through the bucket arrays, falls through to the unbounded
child (reporting not-found when it is null), and at a `LeafNode`
returns a positioned scanner only when its `get()` confirms an exact
match. -/
def Node.search [LinearOrder K] :
    Nat → Node K V → K → Option (Option (LeafNodeScanner K V))
  | 0, _, _ => none
  | fuel + 1, .internalNode bc uc rl rh f, key =>
    match Leaf.min_ge bc key with
    | some (_, child) => Node.search fuel child key
    | none =>
      match uc with
      | none => some none
      | some tail => Node.search fuel tail key
  | _ + 1, .leafNode bc uc rl rh f, key =>
    match Leaf.min_ge bc key with
    | some (_, child) =>
      let sc := LeafNodeScanner.fromKey key (Node.leafNode bc uc rl rh f) child
      some (if (LeafNodeScanner.get sc).isSome then some sc else none)
    | none =>
      match uc with
      | none => some none
      | some tail =>
        let sc := LeafNodeScanner.fromKey key (Node.leafNode bc uc rl rh f) tail
        some (if (LeafNodeScanner.get sc).isSome then some sc else none)

/-- The `while let` loop of `LeafNodeScanner::next` (lines 710-724):
advance through the remaining buckets, skipping empty leaves, until a
leaf yields an entry. -/
def scanBuckets : List (K × Leaf K V) →
    Option ((K × V) × LeafScanner K (Leaf K V) × LeafScanner K V)
  | [] => none
  | (k, leaf) :: t =>
    match LeafScanner.next (LeafScanner.new leaf) with
    | (some e, ls') => some (e, ⟨some (k, leaf), t⟩, ls')
    | (none, _) => scanBuckets t

/-- Lines 727-753 of `LeafNodeScanner::next`: after the bucket loop,
fall through to the unbounded child (null at an `InternalNode`). -/
def LeafNodeScanner.tailStep (s : LeafNodeScanner K V) :
    Option (K × V) × LeafNodeScanner K V :=
  let ub : Option (Leaf K V) :=
    match s.leaf_node with
    | .internalNode _ _ _ _ _ => none
    | .leafNode _ uc _ _ _ => uc
  match ub with
  | some leaf =>
    match LeafScanner.next (LeafScanner.new leaf) with
    | (some e, ls') => (some e, ⟨s.leaf_node, s.node_scanner, some ls'⟩)
    | (none, ls') => (none, ⟨s.leaf_node, s.node_scanner, some ls'⟩)
  | none => (none, s)

/-- Lines 710-753 of `LeafNodeScanner::next`: the bucket loop followed
by the unbounded fall-through; `leaf_scanner` was taken (reset to none)
by the loop exactly when the loop ran at least one iteration. -/
def LeafNodeScanner.nextBuckets (s : LeafNodeScanner K V) :
    Option (K × V) × LeafNodeScanner K V :=
  match s.node_scanner with
  | some ns =>
    match scanBuckets ns.rest with
    | some (e, ns', ls') => (some e, ⟨s.leaf_node, some ns', some ls'⟩)
    | none =>
      LeafNodeScanner.tailStep
        ⟨s.leaf_node, none, if ns.rest.isEmpty then s.leaf_scanner else none⟩
  | none => LeafNodeScanner.tailStep ⟨s.leaf_node, none, s.leaf_scanner⟩

/-- `LeafNodeScanner::next` (lines 673-755): drain the current leaf
first; a scanner with no `node_scanner` (one positioned by `from`) ends
there; otherwise start or continue the bucket scan and finally fall
through to the unbounded child. -/
def LeafNodeScanner.next (s : LeafNodeScanner K V) :
    Option (K × V) × LeafNodeScanner K V :=
  match s.leaf_scanner with
  | some ls =>
    match LeafScanner.next ls with
    | (some e, ls') => (some e, ⟨s.leaf_node, s.node_scanner, some ls'⟩)
    | (none, ls') =>
      match s.node_scanner with
      | none => (none, ⟨s.leaf_node, none, some ls'⟩)
      | some _ => LeafNodeScanner.nextBuckets ⟨s.leaf_node, s.node_scanner, some ls'⟩
  | none =>
    match s.node_scanner with
    | some _ => LeafNodeScanner.nextBuckets s
    | none =>
      match s.leaf_node with
      | .internalNode _ _ _ _ _ => (none, s)
      | .leafNode bc _ _ _ _ =>
        LeafNodeScanner.nextBuckets ⟨s.leaf_node, some (LeafScanner.new bc), none⟩

/-- Repeatedly call `next`, collecting the yielded entries, for at most
`fuel` steps. -/
def LeafNodeScanner.run : Nat → LeafNodeScanner K V → List (K × V)
  | 0, _ => []
  | fuel + 1, s =>
    match LeafNodeScanner.next s with
    | (some e, s') => e :: LeafNodeScanner.run fuel s'
    | (none, _) => []

/-- Strictly ascending keys (adjacent comparison). -/
def sortedKeys [LinearOrder K] : List (K × α) → Bool
  | [] => true
  | [_] => true
  | a :: b :: t => a.1 < b.1 && sortedKeys (b :: t)

/-- `lo < k`, with `none` as an absent (minus-infinity) lower bound. -/
def ltOptB [LinearOrder K] : Option K → K → Bool
  | none, _ => true
  | some a, b => a < b

/-- Key of the last bucket. -/
def lastKeyOf (bc : List (K × α)) : Option K :=
  bc.getLast?.map Prod.fst

/-- Routing well-formedness of a bucket array whose open lower bound is
`lo`: bucket keys strictly ascend, and each bucket's leaf is strictly
sorted with every key in the half-open range `(previous bucket key,
bucket key]`. -/
def wfLeaves [LinearOrder K] : Option K → List (K × Leaf K V) → Bool
  | _, [] => true
  | lo, (bk, leaf) :: t =>
    ltOptB lo bk && sortedKeys leaf &&
    leaf.all (fun e => ltOptB lo e.1 && e.1 ≤ bk) &&
    wfLeaves (some bk) t

/-- Well-formed `LeafNode`: routing-consistent bucket array, and a
strictly sorted unbounded leaf all of whose keys exceed every bucket
key. -/
def wfLN [LinearOrder K] : Node K V → Bool
  | .leafNode bc uc _ _ _ =>
    wfLeaves none bc && sortedKeys (uc.getD []) &&
    (uc.getD []).all (fun e => ltOptB (lastKeyOf bc) e.1)
  | .internalNode _ _ _ _ _ => false

/-- The logical entry sequence of a `LeafNode`: the bucket leaves in
order followed by the unbounded leaf. -/
def flatEntries : Node K V → List (K × V)
  | .leafNode bc uc _ _ _ => (bc.map (fun b => b.2)).flatten ++ uc.getD []
  | .internalNode _ _ _ _ _ => []

/-- The entries a scanner state has yet to yield (specification device
for reasoning about `LeafNodeScanner.run`). -/
def LeafNodeScanner.pending (s : LeafNodeScanner K V) : List (K × V) :=
  match s.leaf_node with
  | .internalNode _ _ _ _ _ => []
  | .leafNode bc uc _ _ _ =>
    match s.node_scanner, s.leaf_scanner with
    | some ns, some ls => ls.rest ++ (ns.rest.map (fun b => b.2)).flatten ++ uc.getD []
    | some ns, none => (ns.rest.map (fun b => b.2)).flatten ++ uc.getD []
    | none, some ls => ls.rest
    | none, none => (bc.map (fun b => b.2)).flatten ++ uc.getD []

/-- All entries stored anywhere in the tree (bucket leaves and unbounded
leaves of every `LeafNode`), to recursion depth `fuel`. -/
def Node.entriesF : Nat → Node K V → List (K × V)
  | _, .leafNode bc uc _ _ _ => (bc.map (fun b => b.2)).flatten ++ uc.getD []
  | 0, .internalNode _ _ _ _ _ => []
  | fuel + 1, .internalNode bc uc _ _ _ =>
    (bc.map (fun b => Node.entriesF fuel b.2)).flatten ++
      (match uc with | some t => Node.entriesF fuel t | none => [])

/-- Floors are consistent with height `g`: internal exactly above 0,
every child one floor lower, a `LeafNode` exactly at 0.  The staging
slots of an `InternalNode` are null (the sources never store into
them). -/
def floorsOk : Nat → Node K V → Bool
  | g + 1, .internalNode bc uc rl rh f =>
    f = g + 1 && bc.all (fun b => floorsOk g b.2) &&
    (match uc with | some t => floorsOk g t | none => true) &&
    rl.isNone && rh.isNone
  | 0, .internalNode _ _ _ _ _ => false
  | 0, .leafNode _ _ _ _ f => f = 0
  | _ + 1, .leafNode _ _ _ _ _ => false

/-- One step of top-down descent: into the `i`-th bucket's child or
into the unbounded child. -/
inductive Dir where
  | bucket : Nat → Dir
  | tail : Dir
deriving DecidableEq

/-- The node reached by following a descent path from `n` (child
pointers only, as materialized by `insert`). -/
def Node.reachAt : Node K V → List Dir → Option (Node K V)
  | n, [] => some n
  | .internalNode bc _ _ _ _, .bucket i :: p =>
    match bc.get? i with
    | some b => Node.reachAt b.2 p
    | none => none
  | .internalNode _ uc _ _ _, .tail :: p =>
    match uc with
    | some t => Node.reachAt t p
    | none => none
  | .leafNode _ _ _ _ _, _ :: _ => none

/-- Concrete driver for the lost-update execution: the 25 distinct keys
below, inserted in this order into `Node.new 1`, all return `Ok`. -/
def c1Keys : List Nat :=
  [10, 20, 30, 40, 50, 60, 70, 80,
   90, 91, 92, 93, 94, 95, 96, 97,
   98, 99, 100, 101, 102, 103, 104, 105, 106]

/-- Folds one insert, keeping the tree only when the insert returned
`Ok` (so a `some` result below certifies every insert returned `Ok`). -/
def c1Step (acc : Option (Node Nat Nat)) (k : Nat) : Option (Node Nat Nat) :=
  match acc with
  | none => none
  | some n =>
    match Node.insert 20 n k (k * 10) with
    | some (.ok, n') => some n'
    | _ => none

/-- The tree after inserting `c1Keys` into a freshly created
`Node::new(1)`. -/
def c1Final : Option (Node Nat Nat) := c1Keys.foldl c1Step (some (Node.new 1))

/-- No bounded bucket covers `key` and the unbounded child is null. -/
def noRoute [LinearOrder K] (n : Node K V) (key : K) : Bool :=
  match n with
  | .internalNode bc uc _ _ _ => (Leaf.min_ge bc key).isNone && uc.isNone
  | .leafNode bc uc _ _ _ => (Leaf.min_ge bc key).isNone && uc.isNone

/-- A full data leaf holding the keys 1..8 (concrete input for the
split-protocol claims). -/
def demoFullLeaf : Leaf Nat Nat :=
  [(1, 1), (2, 2), (3, 3), (4, 4), (5, 5), (6, 6), (7, 7), (8, 8)]

/-- A small well-formed `LeafNode` with two buckets and a populated
unbounded leaf (concrete input for the search/scan claims). -/
def demoNode : Node Nat Nat :=
  Node.leafNode [(2, [(1, 10), (2, 20)]), (4, [(3, 30), (4, 40)])]
    (some [(7, 70)]) none none 0

/-- Contents of the low staged leaf after the distribute and place
steps of `split_leaf` (specification device restating lines 263-287). -/
def splitLowStaged [LinearOrder K] (l : Leaf K V) (e : K × V) : Leaf K V :=
  if (Leaf.distribute l).2.2 = 0 ∨ (Leaf.min_ge (Leaf.distribute l).1.1 e.1).isSome then
    (Leaf.insert (Leaf.distribute l).1.1 e.1 e.2).2
  else (Leaf.distribute l).1.1

/-- Contents of the high staged leaf after the distribute and place
steps of `split_leaf` (specification device restating lines 263-287). -/
def splitHighStaged [LinearOrder K] (l : Leaf K V) (e : K × V) : Leaf K V :=
  if (Leaf.distribute l).2.2 = 0 ∨ (Leaf.min_ge (Leaf.distribute l).1.1 e.1).isSome then
    (Leaf.distribute l).1.2
  else (Leaf.insert (Leaf.distribute l).1.2 e.1 e.2).2

/-! ## Unfolding equations (the structural recursions reduce by `rfl`) -/

theorem search_unfold_internal [LinearOrder K] (fuel : Nat) (bc : List (K × Node K V))
    (uc rl rh : Option (Node K V)) (f : Nat) (key : K) :
    Node.search (fuel + 1) (Node.internalNode bc uc rl rh f) key =
      (match Leaf.min_ge bc key with
       | some (_, child) => Node.search fuel child key
       | none =>
         match uc with
         | none => some none
         | some tail => Node.search fuel tail key) := rfl

theorem search_unfold_leaf [LinearOrder K] (fuel : Nat) (bc : Leaf K (Leaf K V))
    (uc rl rh : Option (Leaf K V)) (f : Nat) (key : K) :
    Node.search (fuel + 1) (Node.leafNode bc uc rl rh f) key =
      (match Leaf.min_ge bc key with
       | some (_, child) =>
         some (if (LeafNodeScanner.get
             (LeafNodeScanner.fromKey key (Node.leafNode bc uc rl rh f) child)).isSome
           then some (LeafNodeScanner.fromKey key (Node.leafNode bc uc rl rh f) child)
           else none)
       | none =>
         match uc with
         | none => some none
         | some tail =>
           some (if (LeafNodeScanner.get
               (LeafNodeScanner.fromKey key (Node.leafNode bc uc rl rh f) tail)).isSome
             then some (LeafNodeScanner.fromKey key (Node.leafNode bc uc rl rh f) tail)
             else none)) := rfl

/-! ## General lemmas about the spec-modelled `Leaf` operations -/

theorem sortedKeys_cons [LinearOrder K] {a : K × α} {l : List (K × α)}
    (h : sortedKeys (a :: l) = true) :
    sortedKeys l = true ∧ ∀ b ∈ l, a.1 < b.1 := by
  induction l generalizing a with
  | nil => simp [sortedKeys]
  | cons b t ih =>
    simp only [sortedKeys, Bool.and_eq_true, decide_eq_true_eq] at h
    obtain ⟨hab, hbt⟩ := h
    obtain ⟨ht, hall⟩ := ih hbt
    refine ⟨hbt, ?_⟩
    intro c hc
    rcases List.mem_cons.mp hc with hc | hc
    · exact hc ▸ hab
    · exact lt_trans hab (hall c hc)

theorem sortedKeys_of_cons [LinearOrder K] {a : K × α} {l : List (K × α)}
    (h : sortedKeys (a :: l) = true) : sortedKeys l = true :=
  (sortedKeys_cons h).1

theorem sortedKeys_append [LinearOrder K] {xs ys : List (K × α)}
    (hx : sortedKeys xs = true) (hy : sortedKeys ys = true)
    (hcross : ∀ a ∈ xs, ∀ b ∈ ys, a.1 < b.1) :
    sortedKeys (xs ++ ys) = true := by
  induction xs with
  | nil => simpa using hy
  | cons a t ih =>
    have ht := (sortedKeys_cons hx).1
    have hat := (sortedKeys_cons hx).2
    have hrec := ih ht (fun a ha b hb => hcross a (List.mem_cons_of_mem _ ha) b hb)
    cases t with
    | nil =>
      cases ys with
      | nil => simp [sortedKeys]
      | cons y ty =>
        simp only [List.nil_append, List.cons_append, sortedKeys, Bool.and_eq_true,
          decide_eq_true_eq]
        exact ⟨hcross a (by simp) y (by simp), by simpa using hrec⟩
    | cons b tb =>
      simp only [List.cons_append, sortedKeys, Bool.and_eq_true, decide_eq_true_eq]
      refine ⟨hat b (by simp), ?_⟩
      simpa using hrec

theorem sortedKeys_append_cross [LinearOrder K] {xs ys : List (K × α)}
    (h : sortedKeys (xs ++ ys) = true) :
    ∀ a ∈ xs, ∀ b ∈ ys, a.1 < b.1 := by
  induction xs with
  | nil => simp
  | cons x t ih =>
    intro a ha b hb
    rw [List.cons_append] at h
    rcases List.mem_cons.mp ha with ha | ha
    · exact ha ▸ (sortedKeys_cons h).2 b (by simp [hb])
    · exact ih (sortedKeys_of_cons h) a ha b hb

theorem sortedKeys_append_parts [LinearOrder K] {xs ys : List (K × α)}
    (h : sortedKeys (xs ++ ys) = true) :
    sortedKeys xs = true ∧ sortedKeys ys = true := by
  induction xs with
  | nil => exact ⟨rfl, by simpa using h⟩
  | cons x t ih =>
    rw [List.cons_append] at h
    obtain ⟨ht, hys⟩ := ih (sortedKeys_of_cons h)
    refine ⟨?_, hys⟩
    cases t with
    | nil => simp [sortedKeys]
    | cons b tb =>
      simp only [sortedKeys, Bool.and_eq_true, decide_eq_true_eq]
      exact ⟨(sortedKeys_cons h).2 b (by simp), ht⟩

theorem insertLoc_perm [LinearOrder K] (l : List (K × α)) (k : K) (v : α) :
    (Leaf.insertLoc l k v).Perm ((k, v) :: l) := by
  induction l with
  | nil => simp [Leaf.insertLoc]
  | cons e t ih =>
    by_cases hk : k ≤ e.1
    · simp [Leaf.insertLoc, hk]
    · simp only [Leaf.insertLoc, hk, if_false]
      exact (ih.cons e).trans (List.Perm.swap _ _ _)

theorem insertLoc_length [LinearOrder K] (l : List (K × α)) (k : K) (v : α) :
    (Leaf.insertLoc l k v).length = l.length + 1 := by
  simpa using (insertLoc_perm l k v).length_eq

theorem insertLoc_mem [LinearOrder K] {l : List (K × α)} {k : K} {v : α} {x : K × α} :
    x ∈ Leaf.insertLoc l k v ↔ x = (k, v) ∨ x ∈ l := by
  rw [(insertLoc_perm l k v).mem_iff]
  simp

theorem insertLoc_sorted [LinearOrder K] {l : List (K × α)} {k : K} {v : α}
    (hs : sortedKeys l = true) (hfresh : ∀ e ∈ l, e.1 ≠ k) :
    sortedKeys (Leaf.insertLoc l k v) = true := by
  induction l with
  | nil => simp [Leaf.insertLoc, sortedKeys]
  | cons e t ih =>
    by_cases hk : k ≤ e.1
    · have hlt : k < e.1 := lt_of_le_of_ne hk (fun h => hfresh e (by simp) h.symm)
      have := sortedKeys_cons hs
      simp only [Leaf.insertLoc, hk, if_true]
      cases t with
      | nil => simp [sortedKeys, hlt]
      | cons b tb =>
        simp only [sortedKeys, Bool.and_eq_true, decide_eq_true_eq] at hs ⊢
        exact ⟨hlt, hs⟩
    · have hel : e.1 < k := lt_of_not_le hk
      have ht := (sortedKeys_cons hs).1
      have hall := (sortedKeys_cons hs).2
      have hrec := ih ht (fun b hb => hfresh b (List.mem_cons_of_mem _ hb))
      simp only [Leaf.insertLoc, hk, if_false]
      cases htl : Leaf.insertLoc t k v with
      | nil => simp [sortedKeys]
      | cons b tb =>
        have hb : b ∈ Leaf.insertLoc t k v := by simp [htl]
        have hb' : b = (k, v) ∨ b ∈ t := insertLoc_mem.mp hb
        have heb : e.1 < b.1 := by
          rcases hb' with hb' | hb'
          · exact hb' ▸ hel
          · exact hall b hb'
        rw [htl] at hrec
        simp only [sortedKeys, Bool.and_eq_true, decide_eq_true_eq]
        exact ⟨heb, hrec⟩

theorem min_ge_none [LinearOrder K] {l : List (K × α)} {key : K} :
    Leaf.min_ge l key = none ↔ ∀ e ∈ l, e.1 < key := by
  simp only [Leaf.min_ge, List.find?_eq_none, decide_eq_true_eq]
  constructor
  · intro h e he
    exact lt_of_not_le (h e he)
  · intro h e he
    exact not_le_of_lt (h e he)

theorem min_ge_mem [LinearOrder K] {l : List (K × α)} {key : K} {e : K × α}
    (h : Leaf.min_ge l key = some e) : e ∈ l ∧ key ≤ e.1 := by
  refine ⟨List.mem_of_find?_eq_some h, ?_⟩
  have := List.find?_some h
  simpa using this

theorem min_ge_isSome_iff [LinearOrder K] {l : List (K × α)} {key : K} :
    (Leaf.min_ge l key).isSome = true ↔ ∃ e ∈ l, key ≤ e.1 := by
  constructor
  · intro h
    obtain ⟨e, he⟩ := Option.isSome_iff_exists.mp h
    obtain ⟨hm, hk⟩ := min_ge_mem he
    exact ⟨e, hm, hk⟩
  · intro ⟨e, he, hk⟩
    rcases hmg : Leaf.min_ge l key with _ | f
    · exact absurd (min_ge_none.mp hmg e he) (not_lt_of_le hk)
    · simp

theorem sortedKeys_le_last [LinearOrder K] {l : List (K × α)} {x : K × α} {mx : K}
    (hs : sortedKeys l = true) (hx : x ∈ l) (hmx : Leaf.max_key l = some mx) :
    x.1 ≤ mx := by
  induction l generalizing x with
  | nil => cases hx
  | cons e t ih =>
    cases t with
    | nil =>
      simp only [List.mem_singleton] at hx
      subst hx
      have : Leaf.max_key [x] = some x.1 := rfl
      rw [this, Option.some_inj] at hmx
      exact le_of_eq hmx
    | cons b tb =>
      have hmx' : Leaf.max_key (b :: tb) = some mx := by
        simpa [Leaf.max_key, List.getLast?_cons_cons] using hmx
      rcases List.mem_cons.mp hx with hx | hx
      · have hb : b.1 ≤ mx := ih (sortedKeys_of_cons hs) (by simp) hmx'
        have heb : e.1 < b.1 := (sortedKeys_cons hs).2 b (by simp)
        exact hx ▸ le_of_lt (lt_of_lt_of_le heb hb)
      · exact ih (sortedKeys_of_cons hs) hx hmx'

theorem max_key_mem [LinearOrder K] {l : List (K × α)} {mx : K}
    (h : Leaf.max_key l = some mx) : ∃ v, (mx, v) ∈ l := by
  rcases hlast : l.getLast? with _ | e
  · simp [Leaf.max_key, hlast] at h
  · obtain ⟨hne, hx⟩ := List.mem_getLast?_eq_getLast (l := l) (x := e) (by simp [hlast])
    have hm : e ∈ l := hx ▸ List.getLast_mem hne
    rw [Leaf.max_key, hlast] at h
    have h' : e.1 = mx := by simpa using h
    exact ⟨e.2, by rw [← h', Prod.mk.eta]; exact hm⟩

theorem find?_eq_of_mem_sorted [LinearOrder K] {l : List (K × α)} {e : K × α}
    (hs : sortedKeys l = true) (he : e ∈ l) :
    l.find? (fun x => x.1 = e.1) = some e := by
  induction l with
  | nil => cases he
  | cons a t ih =>
    rcases List.mem_cons.mp he with he' | he'
    · subst he'
      simp [List.find?_cons_of_pos]
    · have hne : a.1 ≠ e.1 := ne_of_lt ((sortedKeys_cons hs).2 e he')
      rw [List.find?_cons_of_neg _ (by simpa using hne)]
      exact ih (sortedKeys_of_cons hs) he'

theorem Leaf.insert_success [LinearOrder K] {l : Leaf K α} {k : K} {v : α}
    (hfresh : ∀ e ∈ l, e.1 ≠ k) (hroom : l.length < ARRAY_SIZE) :
    Leaf.insert l k v = (none, Leaf.insertLoc l k v) := by
  have hany : l.any (fun e => e.1 = k) = false := by
    simp only [List.any_eq_false, decide_eq_true_eq]
    exact hfresh
  have hfull : Leaf.full l = false := by
    simp only [Leaf.full, decide_eq_false_iff_not, not_le]
    exact hroom
  simp [Leaf.insert, hany, hfull]

theorem Leaf.insert_fails_iff [LinearOrder K] {l : Leaf K α} {k : K} {v : α} :
    (Leaf.insert l k v).1.isSome = true ↔
      l.any (fun e => e.1 = k) = true ∨ Leaf.full l = true := by
  by_cases hany : l.any (fun e => e.1 = k) = true
  · simp [Leaf.insert, hany]
  · by_cases hfull : Leaf.full l = true
    · simp [Leaf.insert, hany, hfull]
    · simp [Leaf.insert, hany, hfull]

theorem sortedKeys_take_drop [LinearOrder K] {l : List (K × α)} (m : Nat)
    (hs : sortedKeys l = true) :
    sortedKeys (l.take m) = true ∧ sortedKeys (l.drop m) = true ∧
      ∀ a ∈ l.take m, ∀ b ∈ l.drop m, a.1 < b.1 := by
  have hl : l.take m ++ l.drop m = l := List.take_append_drop m l
  rw [← hl] at hs
  exact ⟨(sortedKeys_append_parts hs).1, (sortedKeys_append_parts hs).2,
    sortedKeys_append_cross hs⟩

theorem updateByKey_all {Q : α → Prop} [DecidableEq K] {l : Leaf K α} {k : K} {v : α}
    (hl : ∀ b ∈ l, Q b.2) (hv : Q v) :
    ∀ b ∈ updateByKey l k v, Q b.2 := by
  induction l with
  | nil => simp [updateByKey]
  | cons e t ih =>
    intro b hb
    by_cases he : e.1 = k
    · simp only [updateByKey, he, if_true] at hb
      rcases List.mem_cons.mp hb with hb | hb
      · exact hb ▸ hv
      · exact hl b (List.mem_cons_of_mem _ hb)
    · simp only [updateByKey, he, if_false] at hb
      rcases List.mem_cons.mp hb with hb | hb
      · exact hb ▸ hl e (by simp)
      · exact ih (fun x hx => hl x (List.mem_cons_of_mem _ hx)) b hb

theorem insertLoc_all {Q : K × α → Prop} [LinearOrder K] {l : Leaf K α} {k : K} {v : α}
    (hl : ∀ b ∈ l, Q b) (hv : Q (k, v)) :
    ∀ b ∈ Leaf.insertLoc l k v, Q b := by
  intro b hb
  rcases insertLoc_mem.mp hb with hb | hb
  · exact hb ▸ hv
  · exact hl b hb

/-! ## Routing lemmas for well-formed leaf nodes -/

theorem wfLeaves_destruct [LinearOrder K] {lo : Option K} {bk : K} {leaf : Leaf K V}
    {t : List (K × Leaf K V)} (h : wfLeaves lo ((bk, leaf) :: t) = true) :
    ltOptB lo bk = true ∧ sortedKeys leaf = true ∧
    (∀ e ∈ leaf, ltOptB lo e.1 = true ∧ e.1 ≤ bk) ∧ wfLeaves (some bk) t = true := by
  simp only [wfLeaves, Bool.and_eq_true, List.all_eq_true, decide_eq_true_eq] at h
  obtain ⟨⟨⟨h1, h2⟩, h3⟩, h4⟩ := h
  refine ⟨h1, h2, fun e he => ?_, h4⟩
  have := h3 e he
  simp only [Bool.and_eq_true, decide_eq_true_eq] at this
  exact this

theorem ltOptB_of_lt [LinearOrder K] {lo : Option K} {a b : K}
    (h : ltOptB lo a = true) (hab : a < b) : ltOptB lo b = true := by
  cases lo with
  | none => rfl
  | some x =>
    simp only [ltOptB, decide_eq_true_eq] at h ⊢
    exact lt_trans h hab

theorem ltOptB_of_le [LinearOrder K] {lo : Option K} {a b : K}
    (h : ltOptB lo a = true) (hab : a ≤ b) : ltOptB lo b = true := by
  cases lo with
  | none => rfl
  | some x =>
    simp only [ltOptB, decide_eq_true_eq] at h ⊢
    exact lt_of_lt_of_le h hab

theorem wfLeaves_flat_lower [LinearOrder K] {lo : Option K} {bc : List (K × Leaf K V)}
    (h : wfLeaves lo bc = true) :
    ∀ e ∈ (bc.map (fun b => b.2)).flatten, ltOptB lo e.1 = true := by
  induction bc generalizing lo with
  | nil => simp
  | cons b t ih =>
    obtain ⟨bk, leaf⟩ := b
    obtain ⟨h1, _, h3, h4⟩ := wfLeaves_destruct h
    intro e he
    simp only [List.map_cons, List.flatten_cons, List.mem_append] at he
    rcases he with he | he
    · exact (h3 e he).1
    · have : ltOptB (some bk) e.1 = true := ih h4 e he
      simp only [ltOptB, decide_eq_true_eq] at this
      exact ltOptB_of_lt h1 this

theorem wfLeaves_keys_le_last [LinearOrder K] {lo : Option K} {bc : List (K × Leaf K V)}
    (h : wfLeaves lo bc = true) :
    ∀ b ∈ bc, ∀ lk, lastKeyOf bc = some lk → b.1 ≤ lk := by
  induction bc generalizing lo with
  | nil => simp
  | cons x t ih =>
    obtain ⟨bk, leaf⟩ := x
    obtain ⟨_, _, _, h4⟩ := wfLeaves_destruct h
    intro b hb lk hlk
    cases t with
    | nil =>
      simp only [List.mem_singleton] at hb
      subst hb
      have hone : lastKeyOf [(bk, leaf)] = some bk := rfl
      rw [hone, Option.some_inj] at hlk
      exact le_of_eq hlk
    | cons y ty =>
      have hlk' : lastKeyOf (y :: ty) = some lk := by
        simpa [lastKeyOf, List.getLast?_cons_cons] using hlk
      rcases List.mem_cons.mp hb with hb | hb
      · have hy : ltOptB (some bk) y.1 = true := (wfLeaves_destruct h4).1
        simp only [ltOptB, decide_eq_true_eq] at hy
        have := ih h4 y (by simp) lk hlk'
        exact hb ▸ le_of_lt (lt_of_lt_of_le hy this)
      · exact ih h4 b hb lk hlk'

theorem wfLeaves_flat_le_last [LinearOrder K] {lo : Option K} {bc : List (K × Leaf K V)}
    (h : wfLeaves lo bc = true) :
    ∀ e ∈ (bc.map (fun b => b.2)).flatten, ∀ lk, lastKeyOf bc = some lk → e.1 ≤ lk := by
  induction bc generalizing lo with
  | nil => simp
  | cons x t ih =>
    obtain ⟨bk, leaf⟩ := x
    obtain ⟨_, _, h3, h4⟩ := wfLeaves_destruct h
    intro e he lk hlk
    have hbk : bk ≤ lk := wfLeaves_keys_le_last h (bk, leaf) (by simp) lk hlk
    simp only [List.map_cons, List.flatten_cons, List.mem_append] at he
    rcases he with he | he
    · exact le_trans (h3 e he).2 hbk
    · cases t with
      | nil => simp at he
      | cons y ty =>
        have hlk' : lastKeyOf (y :: ty) = some lk := by
          simpa [lastKeyOf, List.getLast?_cons_cons] using hlk
        exact ih h4 e he lk hlk'

theorem wfLeaves_flat_sorted [LinearOrder K] {lo : Option K} {bc : List (K × Leaf K V)}
    (h : wfLeaves lo bc = true) :
    sortedKeys ((bc.map (fun b => b.2)).flatten) = true := by
  induction bc generalizing lo with
  | nil => rfl
  | cons x t ih =>
    obtain ⟨bk, leaf⟩ := x
    obtain ⟨_, h2, h3, h4⟩ := wfLeaves_destruct h
    simp only [List.map_cons, List.flatten_cons]
    refine sortedKeys_append h2 (ih h4) ?_
    intro a ha b hb
    have hb' : ltOptB (some bk) b.1 = true := wfLeaves_flat_lower h4 b hb
    simp only [ltOptB, decide_eq_true_eq] at hb'
    exact lt_of_le_of_lt (h3 a ha).2 hb'

theorem wfLeaves_route [LinearOrder K] {lo : Option K} {bc : List (K × Leaf K V)}
    (h : wfLeaves lo bc = true) :
    ∀ e ∈ (bc.map (fun b => b.2)).flatten,
      ∃ bk leaf, Leaf.min_ge bc e.1 = some (bk, leaf) ∧ e ∈ leaf ∧
        sortedKeys leaf = true := by
  induction bc generalizing lo with
  | nil => simp
  | cons x t ih =>
    obtain ⟨bk, leaf⟩ := x
    obtain ⟨_, h2, h3, h4⟩ := wfLeaves_destruct h
    intro e he
    simp only [List.map_cons, List.flatten_cons, List.mem_append] at he
    rcases he with he | he
    · refine ⟨bk, leaf, ?_, he, h2⟩
      have : e.1 ≤ bk := (h3 e he).2
      simp [Leaf.min_ge, List.find?_cons_of_pos, this]
    · have hgt : ltOptB (some bk) e.1 = true := wfLeaves_flat_lower h4 e he
      simp only [ltOptB, decide_eq_true_eq] at hgt
      obtain ⟨bk', leaf', hfind, hmem, hsort⟩ := ih h4 e he
      refine ⟨bk', leaf', ?_, hmem, hsort⟩
      rw [Leaf.min_ge, List.find?_cons_of_neg _ (by simp [not_le_of_lt hgt])]
      exact hfind

theorem wfLN_destruct [LinearOrder K] {bc : Leaf K (Leaf K V)} {uc : Option (Leaf K V)}
    {rl rh : Option (Leaf K V)} {f : Nat}
    (h : wfLN (Node.leafNode bc uc rl rh f) = true) :
    wfLeaves none bc = true ∧ sortedKeys (uc.getD []) = true ∧
      ∀ e ∈ uc.getD [], ltOptB (lastKeyOf bc) e.1 = true := by
  simp only [wfLN, Bool.and_eq_true, List.all_eq_true] at h
  exact ⟨h.1.1, h.1.2, h.2⟩

theorem wf_flat_sorted [LinearOrder K] {n : Node K V} (h : wfLN n = true) :
    sortedKeys (flatEntries n) = true := by
  match n with
  | .internalNode _ _ _ _ _ => simp [wfLN] at h
  | .leafNode bc uc rl rh f =>
    obtain ⟨h1, h2, h3⟩ := wfLN_destruct h
    simp only [flatEntries]
    refine sortedKeys_append (wfLeaves_flat_sorted h1) h2 ?_
    intro a ha b hb
    have hb' : ltOptB (lastKeyOf bc) b.1 = true := h3 b hb
    cases hbc : lastKeyOf bc with
    | none =>
      exfalso
      cases bc with
      | nil => simp at ha
      | cons x t =>
        rw [lastKeyOf, List.getLast?_eq_getLast_of_ne_nil (List.cons_ne_nil x t)] at hbc
        simp at hbc
    | some lk =>
      rw [hbc] at hb'
      simp only [ltOptB, decide_eq_true_eq] at hb'
      exact lt_of_le_of_lt (wfLeaves_flat_le_last h1 a ha lk hbc) hb'

theorem wf_search_found [LinearOrder K] {bc : Leaf K (Leaf K V)}
    {uc : Option (Leaf K V)} {rl rh : Option (Leaf K V)} {f : Nat} {e : K × V}
    (hwf : wfLN (Node.leafNode bc uc rl rh f) = true)
    (he : e ∈ flatEntries (Node.leafNode bc uc rl rh f)) (sf : Nat) :
    ∃ sc, Node.search (sf + 1) (Node.leafNode bc uc rl rh f) e.1 = some (some sc) ∧
      LeafNodeScanner.get sc = some e := by
  obtain ⟨h1, h2, h3⟩ := wfLN_destruct hwf
  simp only [flatEntries, List.mem_append] at he
  rcases he with he | he
  · obtain ⟨bk, leaf, hroute, hmem, hsort⟩ := wfLeaves_route h1 e he
    have hget : (LeafNodeScanner.fromKey e.1 (Node.leafNode bc uc rl rh f) leaf).get
        = some e := by
      simp only [LeafNodeScanner.fromKey, LeafNodeScanner.get, LeafScanner.fromKey,
        LeafScanner.get]
      exact find?_eq_of_mem_sorted hsort hmem
    refine ⟨_, ?_, hget⟩
    simp only [Node.search, hroute, hget, Option.isSome_some, if_true]
  · have huc : ∃ tail, uc = some tail ∧ e ∈ tail := by
      cases uc with
      | none => simp at he
      | some tail => exact ⟨tail, rfl, by simpa using he⟩
    obtain ⟨tail, hucq, hetail⟩ := huc
    subst hucq
    have hnone : Leaf.min_ge bc e.1 = none := by
      refine min_ge_none.mpr ?_
      intro b hb
      have hb' : ltOptB (lastKeyOf bc) e.1 = true := h3 e (by simpa using hetail)
      cases hbc : lastKeyOf bc with
      | none =>
        exfalso
        cases bc with
        | nil => simp at hb
        | cons x t =>
          rw [lastKeyOf, List.getLast?_eq_getLast_of_ne_nil (List.cons_ne_nil x t)] at hbc
          simp at hbc
      | some lk =>
        rw [hbc] at hb'
        simp only [ltOptB, decide_eq_true_eq] at hb'
        exact lt_of_le_of_lt (wfLeaves_keys_le_last h1 b hb lk hbc) hb'
    have hget : (LeafNodeScanner.fromKey e.1 (Node.leafNode bc (some tail) rl rh f) tail).get
        = some e := by
      simp only [LeafNodeScanner.fromKey, LeafNodeScanner.get, LeafScanner.fromKey,
        LeafScanner.get]
      exact find?_eq_of_mem_sorted h2 (by simpa using hetail)
    refine ⟨_, ?_, hget⟩
    simp only [Node.search, hnone, hget, Option.isSome_some, if_true]

theorem search_noRoute [LinearOrder K] {n : Node K V} {key : K}
    (h : noRoute n key = true) (fuel : Nat) :
    Node.search (fuel + 1) n key = some none := by
  match n with
  | .internalNode bc uc rl rh f =>
    simp only [noRoute, Bool.and_eq_true, Option.isNone_iff_eq_none] at h
    obtain ⟨h1, h2⟩ := h
    simp [Node.search, h1, h2]
  | .leafNode bc uc rl rh f =>
    simp only [noRoute, Bool.and_eq_true, Option.isNone_iff_eq_none] at h
    obtain ⟨h1, h2⟩ := h
    simp [Node.search, h1, h2]

theorem search_sound [LinearOrder K] :
    ∀ (fuel : Nat) (n : Node K V) (key : K) (sc : LeafNodeScanner K V),
      Node.search fuel n key = some (some sc) →
      ∃ v, LeafNodeScanner.get sc = some (key, v) ∧ (key, v) ∈ Node.entriesF fuel n := by
  intro fuel
  induction fuel with
  | zero => intro n key sc h; simp [Node.search] at h
  | succ fuel ih =>
    intro n key sc h
    match n with
    | .internalNode bc uc rl rh f =>
      rw [search_unfold_internal] at h
      rcases hmg : Leaf.min_ge bc key with _ | ⟨x, child⟩
      · rw [hmg] at h
        rcases huc : uc with _ | tail
        · rw [huc] at h; simp at h
        · rw [huc] at h
          obtain ⟨v, hv, hmem⟩ := ih tail key sc h
          refine ⟨v, hv, ?_⟩
          simp only [Node.entriesF, List.mem_append, huc]
          exact Or.inr hmem
      · rw [hmg] at h
        obtain ⟨v, hv, hmem⟩ := ih child key sc h
        refine ⟨v, hv, ?_⟩
        simp only [Node.entriesF, List.mem_append]
        exact Or.inl (List.mem_flatten.mpr ⟨Node.entriesF fuel child,
          List.mem_map.mpr ⟨(x, child), (min_ge_mem hmg).1, rfl⟩, hmem⟩)
    | .leafNode bc uc rl rh f =>
      rw [search_unfold_leaf] at h
      rcases hmg : Leaf.min_ge bc key with _ | ⟨x, child⟩
      · rw [hmg] at h
        rcases huc : uc with _ | tail
        · rw [huc] at h; simp at h
        · rw [huc] at h
          have h2 : (if (LeafNodeScanner.get (LeafNodeScanner.fromKey key
                (Node.leafNode bc (some tail) rl rh f) tail)).isSome
              then some (LeafNodeScanner.fromKey key (Node.leafNode bc (some tail) rl rh f) tail)
              else none) = some sc := Option.some_inj.mp h
          by_cases hg : (LeafNodeScanner.get (LeafNodeScanner.fromKey key
              (Node.leafNode bc (some tail) rl rh f) tail)).isSome = true
          · rw [if_pos hg, Option.some_inj] at h2
            obtain ⟨e, hge⟩ := Option.isSome_iff_exists.mp hg
            have hfind : tail.find? (fun x => x.1 = key) = some e := by
              simpa [LeafNodeScanner.get, LeafNodeScanner.fromKey, LeafScanner.fromKey,
                LeafScanner.get] using hge
            have hkey : e.1 = key := by
              have := List.find?_some hfind
              simpa using this
            refine ⟨e.2, ?_, ?_⟩
            · rw [← h2]
              simp only [LeafNodeScanner.get, LeafNodeScanner.fromKey, LeafScanner.fromKey,
                LeafScanner.get]
              rw [hfind, ← hkey, Prod.mk.eta]
            · have hm : e ∈ tail := List.mem_of_find?_eq_some hfind
              simp only [Node.entriesF, List.mem_append, huc]
              refine Or.inr ?_
              rw [← hkey, Prod.mk.eta]
              exact hm
          · rw [if_neg hg] at h2
            simp at h2
      · rw [hmg] at h
        have h2 : (if (LeafNodeScanner.get (LeafNodeScanner.fromKey key
              (Node.leafNode bc uc rl rh f) child)).isSome
            then some (LeafNodeScanner.fromKey key (Node.leafNode bc uc rl rh f) child)
            else none) = some sc := Option.some_inj.mp h
        by_cases hg : (LeafNodeScanner.get (LeafNodeScanner.fromKey key
            (Node.leafNode bc uc rl rh f) child)).isSome = true
        · rw [if_pos hg, Option.some_inj] at h2
          obtain ⟨e, hge⟩ := Option.isSome_iff_exists.mp hg
          have hfind : child.find? (fun x => x.1 = key) = some e := by
            simpa [LeafNodeScanner.get, LeafNodeScanner.fromKey, LeafScanner.fromKey,
              LeafScanner.get] using hge
          have hkey : e.1 = key := by
            have := List.find?_some hfind
            simpa using this
          refine ⟨e.2, ?_, ?_⟩
          · rw [← h2]
            simp only [LeafNodeScanner.get, LeafNodeScanner.fromKey, LeafScanner.fromKey,
              LeafScanner.get]
            rw [hfind, ← hkey, Prod.mk.eta]
          · have hm : e ∈ child := List.mem_of_find?_eq_some hfind
            simp only [Node.entriesF, List.mem_append]
            refine Or.inl (List.mem_flatten.mpr ⟨child, ?_, ?_⟩)
            · exact List.mem_map.mpr ⟨(x, child), (min_ge_mem hmg).1, rfl⟩
            · rw [← hkey, Prod.mk.eta]; exact hm
        · rw [if_neg hg] at h2
          simp at h2

/-! ## Scanner lemmas -/

theorem scanBuckets_none {l : List (K × Leaf K V)} (h : scanBuckets l = none) :
    (l.map (fun b => b.2)).flatten = [] := by
  induction l with
  | nil => rfl
  | cons b t ih =>
    obtain ⟨k, leaf⟩ := b
    cases leaf with
    | nil =>
      simp only [scanBuckets, LeafScanner.new, LeafScanner.next] at h
      simpa using ih h
    | cons e tl =>
      simp [scanBuckets, LeafScanner.new, LeafScanner.next] at h

theorem scanBuckets_some {l : List (K × Leaf K V)} {e : K × V}
    {ns' : LeafScanner K (Leaf K V)} {ls' : LeafScanner K V}
    (h : scanBuckets l = some (e, ns', ls')) :
    (l.map (fun b => b.2)).flatten =
      e :: (ls'.rest ++ (ns'.rest.map (fun b => b.2)).flatten) := by
  induction l with
  | nil => simp [scanBuckets] at h
  | cons b t ih =>
    obtain ⟨k, leaf⟩ := b
    cases leaf with
    | nil =>
      simp only [scanBuckets, LeafScanner.new, LeafScanner.next] at h
      simpa using ih h
    | cons e0 tl =>
      simp only [scanBuckets, LeafScanner.new, LeafScanner.next, Option.some_inj,
        Prod.mk.injEq] at h
      obtain ⟨he, hns, hls⟩ := h
      subst he hns hls
      simp

theorem nextBuckets_step {bc : Leaf K (Leaf K V)} {uc : Option (Leaf K V)}
    {rl rh : Option (Leaf K V)} {f : Nat}
    (ns0 : LeafScanner K (Leaf K V)) (ls : Option (LeafScanner K V)) :
    (∀ e s', LeafNodeScanner.nextBuckets
        ⟨Node.leafNode bc uc rl rh f, some ns0, ls⟩ = (some e, s') →
      s'.leaf_node = Node.leafNode bc uc rl rh f ∧
      (ns0.rest.map (fun b => b.2)).flatten ++ uc.getD [] =
        e :: LeafNodeScanner.pending s') ∧
    (∀ s', LeafNodeScanner.nextBuckets
        ⟨Node.leafNode bc uc rl rh f, some ns0, ls⟩ = (none, s') →
      (ns0.rest.map (fun b => b.2)).flatten ++ uc.getD [] = []) := by
  rcases hsb : scanBuckets ns0.rest with _ | ⟨e0, ns', ls'⟩
  · have hflat := scanBuckets_none hsb
    rcases huc : uc with _ | tail
    · constructor
      · intro e s' h
        simp only [LeafNodeScanner.nextBuckets, hsb, LeafNodeScanner.tailStep, huc] at h
        cases h
      · intro s' h
        simp [hflat, huc]
    · cases tail with
      | nil =>
        constructor
        · intro e s' h
          simp only [LeafNodeScanner.nextBuckets, hsb, LeafNodeScanner.tailStep, huc,
            LeafScanner.new, LeafScanner.next] at h
          cases h
        · intro s' h
          simp [hflat, huc]
      | cons e0 t0 =>
        constructor
        · intro e s' h
          simp only [LeafNodeScanner.nextBuckets, hsb, LeafNodeScanner.tailStep, huc,
            LeafScanner.new, LeafScanner.next, Prod.mk.injEq, Option.some_inj] at h
          obtain ⟨he, hs'⟩ := h
          subst he
          subst hs'
          constructor
          · rfl
          · simp [hflat, huc, LeafNodeScanner.pending]
        · intro s' h
          simp only [LeafNodeScanner.nextBuckets, hsb, LeafNodeScanner.tailStep, huc,
            LeafScanner.new, LeafScanner.next, Prod.mk.injEq] at h
          cases h.1
  · have hflat := scanBuckets_some hsb
    constructor
    · intro e s' h
      simp only [LeafNodeScanner.nextBuckets, hsb, Prod.mk.injEq, Option.some_inj] at h
      obtain ⟨he, hs'⟩ := h
      subst he
      subst hs'
      constructor
      · rfl
      · simp [hflat, LeafNodeScanner.pending]
    · intro s' h
      simp only [LeafNodeScanner.nextBuckets, hsb, Prod.mk.injEq] at h
      cases h.1

theorem next_step {bc : Leaf K (Leaf K V)} {uc : Option (Leaf K V)}
    {rl rh : Option (Leaf K V)} {f : Nat}
    (ns : Option (LeafScanner K (Leaf K V))) (ls : Option (LeafScanner K V)) :
    (∀ e s', LeafNodeScanner.next ⟨Node.leafNode bc uc rl rh f, ns, ls⟩ = (some e, s') →
      s'.leaf_node = Node.leafNode bc uc rl rh f ∧
      LeafNodeScanner.pending ⟨Node.leafNode bc uc rl rh f, ns, ls⟩ =
        e :: LeafNodeScanner.pending s') ∧
    (∀ s', LeafNodeScanner.next ⟨Node.leafNode bc uc rl rh f, ns, ls⟩ = (none, s') →
      LeafNodeScanner.pending ⟨Node.leafNode bc uc rl rh f, ns, ls⟩ = []) := by
  rcases ls with _ | ⟨cur, rest⟩
  · rcases ns with _ | ns0
    · -- fresh scanner: start scanning the bucket array
      have hb := @nextBuckets_step K V bc uc rl rh f
        (LeafScanner.new bc) none
      constructor
      · intro e s' h
        simp only [LeafNodeScanner.next, LeafNodeScanner.nextBuckets] at h hb
        obtain ⟨h1, h2⟩ := hb.1 e s' h
        refine ⟨h1, ?_⟩
        simpa [LeafNodeScanner.pending, LeafScanner.new] using h2
      · intro s' h
        simp only [LeafNodeScanner.next, LeafNodeScanner.nextBuckets] at h hb
        have := hb.2 s' h
        simpa [LeafNodeScanner.pending, LeafScanner.new] using this
    · -- continue the bucket scan
      have hb := @nextBuckets_step K V bc uc rl rh f
        ns0 none
      constructor
      · intro e s' h
        simp only [LeafNodeScanner.next] at h
        obtain ⟨h1, h2⟩ := hb.1 e s' h
        refine ⟨h1, ?_⟩
        simpa [LeafNodeScanner.pending] using h2
      · intro s' h
        simp only [LeafNodeScanner.next] at h
        have := hb.2 s' h
        simpa [LeafNodeScanner.pending] using this
  · cases rest with
    | cons e0 t0 =>
      -- drain the current leaf
      constructor
      · intro e s' h
        simp only [LeafNodeScanner.next, LeafScanner.next, Prod.mk.injEq,
          Option.some_inj] at h
        obtain ⟨he, hs'⟩ := h
        subst he
        subst hs'
        rcases ns with _ | ns0 <;> simp [LeafNodeScanner.pending]
      · intro s' h
        simp only [LeafNodeScanner.next, LeafScanner.next, Prod.mk.injEq] at h
        cases h.1
    | nil =>
      -- current leaf exhausted
      rcases ns with _ | ns0
      · -- no node scanner: the cursor ends here
        constructor
        · intro e s' h
          simp only [LeafNodeScanner.next, LeafScanner.next, Prod.mk.injEq] at h
          cases h.1
        · intro s' h
          simp [LeafNodeScanner.pending]
      · -- advance to the next bucket
        have hb := @nextBuckets_step K V bc uc rl rh f
          ns0 (some ⟨none, []⟩)
        constructor
        · intro e s' h
          simp only [LeafNodeScanner.next, LeafScanner.next] at h
          obtain ⟨h1, h2⟩ := hb.1 e s' h
          refine ⟨h1, ?_⟩
          simpa [LeafNodeScanner.pending] using h2
        · intro s' h
          simp only [LeafNodeScanner.next, LeafScanner.next] at h
          have := hb.2 s' h
          simpa [LeafNodeScanner.pending] using this

theorem run_pending {bc : Leaf K (Leaf K V)} {uc : Option (Leaf K V)}
    {rl rh : Option (Leaf K V)} {f : Nat} :
    ∀ (fuel : Nat) (s : LeafNodeScanner K V),
      s.leaf_node = Node.leafNode bc uc rl rh f →
      (LeafNodeScanner.pending s).length < fuel →
      LeafNodeScanner.run fuel s = LeafNodeScanner.pending s := by
  intro fuel
  induction fuel with
  | zero => intro s _ h; omega
  | succ fuel ih =>
    intro s hn hlen
    obtain ⟨nd, ns, ls⟩ := s
    simp only at hn
    subst hn
    rcases hnext : LeafNodeScanner.next ⟨Node.leafNode bc uc rl rh f, ns, ls⟩
      with ⟨_ | e, s'⟩
    · rw [LeafNodeScanner.run, hnext, (next_step ns ls).2 s' hnext]
    · obtain ⟨h1, h2⟩ := (next_step ns ls).1 e s' hnext
      rw [h2] at hlen
      simp only [List.length_cons] at hlen
      rw [LeafNodeScanner.run, hnext, h2]
      show e :: LeafNodeScanner.run fuel s' = e :: LeafNodeScanner.pending s'
      rw [ih s' h1 (by omega)]

/-! ## Floor-consistency lemmas -/

theorem insert_unfold_internal [LinearOrder K] (fuel : Nat) (bc : List (K × Node K V))
    (uc rl rh : Option (Node K V)) (floor : Nat) (key : K) (value : V) :
    Node.insert (fuel + 1) (Node.internalNode bc uc rl rh floor) key value =
      (match Leaf.min_ge bc key with
       | some (mk, child) =>
         match Node.insert fuel child key value with
         | none => none
         | some (res, child') =>
           some (Node.handle_result res (some child'),
             Node.internalNode (updateByKey bc mk child') uc rl rh floor)
       | none =>
         if Leaf.full bc then
           match Node.insert fuel
               (match uc with | some t => t | none => Node.new (floor - 1)) key value with
           | none => none
           | some (res, tail') =>
             some (Node.handle_result res (some tail'),
               Node.internalNode bc (some tail') rl rh floor)
         else
           Node.insert fuel
             (Node.internalNode (Leaf.insert bc key (Node.new (floor - 1))).2
               uc rl rh floor) key value) := rfl

theorem insert_unfold_leaf [LinearOrder K] (fuel : Nat) (bc : Leaf K (Leaf K V))
    (uc rl rh : Option (Leaf K V)) (floor : Nat) (key : K) (value : V) :
    Node.insert (fuel + 1) (Node.leafNode bc uc rl rh floor) key value =
      (match Leaf.min_ge bc key with
       | some (mk, leaf) =>
         match Leaf.insert leaf key value with
         | (none, leaf') =>
           some (.ok, Node.leafNode (updateByKey bc mk leaf') uc rl rh floor)
         | (some (e, true), _) =>
           some (.err (.Duplicated e), Node.leafNode bc uc rl rh floor)
         | (some (e, false), _) =>
           match Node.split_leaf e bc uc (some mk) rl rh with
           | none => none
           | some out =>
             some (out.res, Node.leafNode out.bounded out.unbounded
               out.rlow out.rhigh floor)
       | none =>
         if Leaf.full bc then
           match Leaf.insert (match uc with | some t => t | none => ([] : Leaf K V))
               key value with
           | (none, tail') =>
             some (.ok, Node.leafNode bc (some tail') rl rh floor)
           | (some (e, true), _) =>
             some (.err (.Duplicated e),
               Node.leafNode bc
                 (some (match uc with | some t => t | none => ([] : Leaf K V)))
                 rl rh floor)
           | (some (e, false), _) =>
             match Node.split_leaf e bc
                 (some (match uc with | some t => t | none => ([] : Leaf K V)))
                 none rl rh with
             | none => none
             | some out =>
               some (out.res, Node.leafNode out.bounded out.unbounded
                 out.rlow out.rhigh floor)
         else
           Node.insert fuel
             (Node.leafNode (Leaf.insert bc key ([] : Leaf K V)).2 uc rl rh floor)
             key value) := rfl

theorem floorsOk_new : ∀ g : Nat, floorsOk (K := K) (V := V) g (Node.new g) = true := by
  intro g
  cases g with
  | zero => simp [Node.new, floorsOk]
  | succ g => simp [Node.new, floorsOk]

theorem floorsOk_internal_destruct {g : Nat} {bc : List (K × Node K V)}
    {uc rl rh : Option (Node K V)} {f : Nat}
    (h : floorsOk (g + 1) (Node.internalNode bc uc rl rh f) = true) :
    f = g + 1 ∧ (∀ b ∈ bc, floorsOk g b.2 = true) ∧
      (∀ t, uc = some t → floorsOk g t = true) ∧ rl = none ∧ rh = none := by
  simp only [floorsOk, Bool.and_eq_true, List.all_eq_true, decide_eq_true_eq,
    Option.isNone_iff_eq_none] at h
  obtain ⟨⟨⟨⟨h1, h2⟩, h3⟩, h4⟩, h5⟩ := h
  refine ⟨h1, h2, ?_, h4, h5⟩
  intro t ht
  rw [ht] at h3
  exact h3

theorem floorsOk_internal_intro {g : Nat} {bc : List (K × Node K V)}
    {uc rl rh : Option (Node K V)} {f : Nat}
    (h1 : f = g + 1) (h2 : ∀ b ∈ bc, floorsOk g b.2 = true)
    (h3 : ∀ t, uc = some t → floorsOk g t = true) (h4 : rl = none) (h5 : rh = none) :
    floorsOk (g + 1) (Node.internalNode bc uc rl rh f) = true := by
  simp only [floorsOk, Bool.and_eq_true, List.all_eq_true, decide_eq_true_eq,
    Option.isNone_iff_eq_none]
  refine ⟨⟨⟨⟨h1, h2⟩, ?_⟩, h4⟩, h5⟩
  cases uc with
  | none => rfl
  | some t => exact h3 t rfl

theorem floorsOk_leaf_iff {bc : Leaf K (Leaf K V)} {uc rl rh : Option (Leaf K V)}
    {f : Nat} : floorsOk 0 (Node.leafNode bc uc rl rh f) = decide (f = 0) := rfl

theorem insert_snd_mem [LinearOrder K] {l : Leaf K α} {k : K} {v : α} :
    ∀ x ∈ (Leaf.insert l k v).2, x = (k, v) ∨ x ∈ l := by
  intro x hx
  by_cases hany : l.any (fun e => e.1 = k) = true
  · simp only [Leaf.insert, hany, if_true] at hx
    exact Or.inr hx
  · by_cases hfull : Leaf.full l = true
    · simp only [Leaf.insert, hany, hfull, if_true, if_false, Bool.false_eq_true] at hx
      exact Or.inr hx
    · simp only [Leaf.insert, hany, hfull, if_false, Bool.false_eq_true] at hx
      exact insertLoc_mem.mp hx

theorem insert_preserves_floorsOk [LinearOrder K] :
    ∀ (fuel g : Nat) (n : Node K V) (key : K) (value : V) (res : InsertResult K V)
      (n' : Node K V), floorsOk g n = true →
      Node.insert fuel n key value = some (res, n') → floorsOk g n' = true := by
  intro fuel
  induction fuel with
  | zero =>
    intro g n key value res n' _ hins
    simp [Node.insert] at hins
  | succ fuel ih =>
    intro g n key value res n' hok hins
    match n with
    | .internalNode bc uc rl rh floor =>
      cases g with
      | zero => simp [floorsOk] at hok
      | succ g0 =>
        obtain ⟨hf, hall, huc, hrl, hrh⟩ := floorsOk_internal_destruct hok
        rw [insert_unfold_internal] at hins
        rcases hmg : Leaf.min_ge bc key with _ | ⟨mk, child⟩
        · rw [hmg] at hins
          simp only [] at hins
          by_cases hfull : Leaf.full bc = true
          · rw [if_pos hfull] at hins
            rcases hrec : Node.insert fuel
                (match uc with | some t => t | none => Node.new (floor - 1))
                key value with _ | ⟨res0, tail'⟩
            · rw [hrec] at hins; simp at hins
            · rw [hrec] at hins
              simp only [Option.some_inj, Prod.mk.injEq] at hins
              have htail : floorsOk g0
                  (match uc with | some t => t | none => Node.new (floor - 1)) = true := by
                cases huc2 : uc with
                | some t => simpa using huc t huc2
                | none =>
                  have hfl : floor - 1 = g0 := by omega
                  simpa [hfl] using floorsOk_new (K := K) (V := V) g0
              have htail' := ih g0 _ key value res0 tail' htail hrec
              rw [← hins.2]
              exact floorsOk_internal_intro hf hall
                (fun t ht => by rw [Option.some_inj] at ht; exact ht ▸ htail') hrl hrh
          · rw [if_neg hfull] at hins
            have hnew : floorsOk (g0 + 1)
                (Node.internalNode (Leaf.insert bc key (Node.new (floor - 1))).2
                  uc rl rh floor) = true := by
              refine floorsOk_internal_intro hf ?_ huc hrl hrh
              intro b hb
              rcases insert_snd_mem b hb with hb' | hb'
              · have hfl : floor - 1 = g0 := by omega
                rw [hb']
                simpa [hfl] using floorsOk_new (K := K) (V := V) g0
              · exact hall b hb'
            exact ih (g0 + 1) _ key value res n' hnew hins
        · rw [hmg] at hins
          simp only [] at hins
          rcases hrec : Node.insert fuel child key value with _ | ⟨res0, child'⟩
          · rw [hrec] at hins; simp at hins
          · rw [hrec] at hins
            simp only [Option.some_inj, Prod.mk.injEq] at hins
            have hchild : floorsOk g0 child = true :=
              hall (mk, child) (min_ge_mem hmg).1
            have hchild' := ih g0 child key value res0 child' hchild hrec
            rw [← hins.2]
            refine floorsOk_internal_intro hf ?_ huc hrl hrh
            intro b hb
            exact updateByKey_all (Q := fun x => floorsOk g0 x = true) hall hchild' b hb
    | .leafNode bc uc rl rh floor =>
      cases g with
      | succ g0 => simp [floorsOk] at hok
      | zero =>
        have hok0 : decide (floor = 0) = true := by rwa [floorsOk_leaf_iff] at hok
        rw [insert_unfold_leaf] at hins
        rcases hmg : Leaf.min_ge bc key with _ | ⟨mk, leaf⟩
        · rw [hmg] at hins
          simp only [] at hins
          by_cases hfull : Leaf.full bc = true
          · rw [if_pos hfull] at hins
            rcases huc : uc with _ | t <;> rw [huc] at hins <;> simp only [] at hins
            · rcases hli : Leaf.insert ([] : Leaf K V) key value with ⟨o, tail'⟩
              rw [hli] at hins
              rcases o with _ | ⟨e, eb⟩
              · simp only [] at hins
                simp only [Option.some_inj, Prod.mk.injEq] at hins
                rw [← hins.2, floorsOk_leaf_iff]
                exact hok0
              · cases eb
                · simp only [] at hins
                  rcases hsp : Node.split_leaf e bc (some ([] : Leaf K V)) none rl rh
                    with _ | out
                  · rw [hsp] at hins; simp at hins
                  · rw [hsp] at hins
                    simp only [Option.some_inj, Prod.mk.injEq] at hins
                    rw [← hins.2, floorsOk_leaf_iff]
                    exact hok0
                · simp only [] at hins
                  simp only [Option.some_inj, Prod.mk.injEq] at hins
                  rw [← hins.2, floorsOk_leaf_iff]
                  exact hok0
            · rcases hli : Leaf.insert t key value with ⟨o, tail'⟩
              rw [hli] at hins
              rcases o with _ | ⟨e, eb⟩
              · simp only [] at hins
                simp only [Option.some_inj, Prod.mk.injEq] at hins
                rw [← hins.2, floorsOk_leaf_iff]
                exact hok0
              · cases eb
                · simp only [] at hins
                  rcases hsp : Node.split_leaf e bc (some t) none rl rh with _ | out
                  · rw [hsp] at hins; simp at hins
                  · rw [hsp] at hins
                    simp only [Option.some_inj, Prod.mk.injEq] at hins
                    rw [← hins.2, floorsOk_leaf_iff]
                    exact hok0
                · simp only [] at hins
                  simp only [Option.some_inj, Prod.mk.injEq] at hins
                  rw [← hins.2, floorsOk_leaf_iff]
                  exact hok0
          · rw [if_neg hfull] at hins
            refine ih 0 _ key value res n' ?_ hins
            rw [floorsOk_leaf_iff]
            exact hok0
        · rw [hmg] at hins
          simp only [] at hins
          rcases hli : Leaf.insert leaf key value with ⟨o, leaf'⟩
          rw [hli] at hins
          rcases o with _ | ⟨e, eb⟩
          · simp only [] at hins
            simp only [Option.some_inj, Prod.mk.injEq] at hins
            rw [← hins.2, floorsOk_leaf_iff]
            exact hok0
          · cases eb
            · simp only [] at hins
              rcases hsp : Node.split_leaf e bc uc (some mk) rl rh with _ | out
              · rw [hsp] at hins; simp at hins
              · rw [hsp] at hins
                simp only [Option.some_inj, Prod.mk.injEq] at hins
                rw [← hins.2, floorsOk_leaf_iff]
                exact hok0
            · simp only [] at hins
              simp only [Option.some_inj, Prod.mk.injEq] at hins
              rw [← hins.2, floorsOk_leaf_iff]
              exact hok0

theorem reachAt_nil (n : Node K V) : Node.reachAt n [] = some n := by
  cases n <;> rfl

theorem reachAt_bucket (bc : List (K × Node K V)) (uc rl rh : Option (Node K V))
    (f i : Nat) (p : List Dir) :
    Node.reachAt (Node.internalNode bc uc rl rh f) (Dir.bucket i :: p) =
      (match bc.get? i with
       | some b => Node.reachAt b.2 p
       | none => none) := rfl

theorem reachAt_tail (bc : List (K × Node K V)) (uc rl rh : Option (Node K V))
    (f : Nat) (p : List Dir) :
    Node.reachAt (Node.internalNode bc uc rl rh f) (Dir.tail :: p) =
      (match uc with
       | some t => Node.reachAt t p
       | none => none) := rfl

theorem reachAt_floors :
    ∀ (p : List Dir) (g : Nat) (n m : Node K V),
      floorsOk g n = true → Node.reachAt n p = some m →
      m.floorOf + p.length = g ∧ (m.isInternal = true ↔ p.length < g) := by
  intro p
  induction p with
  | nil =>
    intro g n m hok hr
    have hm : n = m := by simpa [reachAt_nil] using hr
    subst hm
    match g, n with
    | g0 + 1, .internalNode bc uc rl rh f =>
      obtain ⟨hf, _, _, _, _⟩ := floorsOk_internal_destruct hok
      exact ⟨by simpa [Node.floorOf] using hf, by simp [Node.isInternal]⟩
    | 0, .internalNode bc uc rl rh f => simp [floorsOk] at hok
    | 0, .leafNode bc uc rl rh f =>
      rw [floorsOk_leaf_iff, decide_eq_true_eq] at hok
      exact ⟨by simp [Node.floorOf, hok], by simp [Node.isInternal]⟩
    | g0 + 1, .leafNode bc uc rl rh f => simp [floorsOk] at hok
  | cons d p ih =>
    intro g n m hok hr
    match n with
    | .leafNode bc uc rl rh f => cases d <;> simp [Node.reachAt] at hr
    | .internalNode bc uc rl rh f =>
      cases g with
      | zero => simp [floorsOk] at hok
      | succ g0 =>
        obtain ⟨hf, hall, huc, _, _⟩ := floorsOk_internal_destruct hok
        cases d with
        | bucket i =>
          rw [reachAt_bucket] at hr
          rcases hget : bc.get? i with _ | b
          · rw [hget] at hr; simp at hr
          · rw [hget] at hr
            have hb : b ∈ bc := List.get?_mem hget
            obtain ⟨h1, h2⟩ := ih g0 b.2 m (hall b hb) hr
            refine ⟨by simp only [List.length_cons]; omega, ?_⟩
            rw [h2]
            simp only [List.length_cons]
            omega
        | tail =>
          rw [reachAt_tail] at hr
          rcases huc2 : uc with _ | t
          · rw [huc2] at hr; simp at hr
          · rw [huc2] at hr
            obtain ⟨h1, h2⟩ := ih g0 t m (huc t huc2) hr
            refine ⟨by simp only [List.length_cons]; omega, ?_⟩
            rw [h2]
            simp only [List.length_cons]
            omega

/-! ## Distribute-and-place lemmas for the leaf split -/

theorem max_key_isSome {l : List (K × α)} (h : l ≠ []) :
    ∃ mx, Leaf.max_key l = some mx := by
  rw [Leaf.max_key, List.getLast?_eq_getLast_of_ne_nil h]
  exact ⟨(l.getLast h).1, rfl⟩

theorem place_low_spec [LinearOrder K] {l : Leaf K V} {e : K × V}
    (hs : sortedKeys l = true) (hlen : l.length ≤ ARRAY_SIZE)
    (hfresh : ∀ x ∈ l, x.1 ≠ e.1)
    (hc : l.length - l.length / 2 = 0 ∨
      (Leaf.min_ge (l.take (l.length / 2)) e.1).isSome = true) :
    ((Leaf.insert (l.take (l.length / 2)) e.1 e.2).2).length +
        (l.drop (l.length / 2)).length = l.length + 1 ∧
    (∀ a ∈ (Leaf.insert (l.take (l.length / 2)) e.1 e.2).2,
       ∀ b ∈ l.drop (l.length / 2), a.1 < b.1) ∧
    ((((Leaf.insert (l.take (l.length / 2)) e.1 e.2).2 ++
        l.drop (l.length / 2)).map Prod.fst).Perm ((l.map Prod.fst) ++ [e.1])) ∧
    e ∈ (Leaf.insert (l.take (l.length / 2)) e.1 e.2).2 ∧
    e ∉ l.drop (l.length / 2) ∧
    (l.drop (l.length / 2) = [] ∨
      ∃ mx, Leaf.max_key (l.take (l.length / 2)) = some mx ∧ e.1 ≤ mx) := by
  obtain ⟨hsl, hsh, hcross⟩ := sortedKeys_take_drop (l.length / 2) hs
  have hfl : ∀ x ∈ l.take (l.length / 2), x.1 ≠ e.1 :=
    fun x hx => hfresh x (List.mem_of_mem_take hx)
  have hfh : ∀ x ∈ l.drop (l.length / 2), x.1 ≠ e.1 :=
    fun x hx => hfresh x (List.mem_of_mem_drop hx)
  have hroom : (l.take (l.length / 2)).length < ARRAY_SIZE := by
    rw [List.length_take]
    simp only [ARRAY_SIZE] at hlen ⊢
    omega
  have h2 : (Leaf.insert (l.take (l.length / 2)) e.1 e.2).2 =
      Leaf.insertLoc (l.take (l.length / 2)) e.1 e.2 := by
    rw [Leaf.insert_success hfl hroom]
  rw [h2]
  have helt : e = (e.1, e.2) := rfl
  have hcrossn : ∀ a ∈ Leaf.insertLoc (l.take (l.length / 2)) e.1 e.2,
      ∀ b ∈ l.drop (l.length / 2), a.1 < b.1 := by
    intro a ha b hb
    rcases insertLoc_mem.mp ha with ha' | ha'
    · subst ha'
      rcases hc with hc | hc
      · exfalso
        have : (l.drop (l.length / 2)).length = 0 := by
          rw [List.length_drop]; exact hc
        rw [List.length_eq_zero] at this
        rw [this] at hb
        cases hb
      · obtain ⟨m, hm, hle⟩ := min_ge_isSome_iff.mp hc
        exact lt_of_le_of_lt hle (hcross m hm b hb)
    · exact hcross a ha' b hb
  refine ⟨?_, hcrossn, ?_, ?_, ?_, ?_⟩
  · rw [insertLoc_length, List.length_take, List.length_drop]
    omega
  · have hp : (Leaf.insertLoc (l.take (l.length / 2)) e.1 e.2 ++
        l.drop (l.length / 2)).Perm
        (((e.1, e.2) :: l.take (l.length / 2)) ++ l.drop (l.length / 2)) :=
      (insertLoc_perm _ _ _).append_right _
    have hp2 := hp.map Prod.fst
    refine hp2.trans ?_
    simp only [List.cons_append, List.map_cons, List.take_append_drop]
    exact (List.perm_append_singleton _ _).symm
  · exact insertLoc_mem.mpr (Or.inl helt)
  · intro hmem
    exact hfh e hmem rfl
  · rcases hc with hc | hc
    · left
      have : (l.drop (l.length / 2)).length = 0 := by
        rw [List.length_drop]; exact hc
      rwa [List.length_eq_zero] at this
    · right
      obtain ⟨m, hm, hle⟩ := min_ge_isSome_iff.mp hc
      obtain ⟨mx, hmx⟩ := max_key_isSome (List.ne_nil_of_mem hm)
      exact ⟨mx, hmx, le_trans hle (sortedKeys_le_last hsl hm hmx)⟩

theorem place_high_spec [LinearOrder K] {l : Leaf K V} {e : K × V}
    (hs : sortedKeys l = true) (hlen : l.length ≤ ARRAY_SIZE)
    (hfresh : ∀ x ∈ l, x.1 ≠ e.1)
    (hc : ¬ (l.length - l.length / 2 = 0 ∨
      (Leaf.min_ge (l.take (l.length / 2)) e.1).isSome = true)) :
    (l.take (l.length / 2)).length +
        ((Leaf.insert (l.drop (l.length / 2)) e.1 e.2).2).length = l.length + 1 ∧
    (∀ a ∈ l.take (l.length / 2),
       ∀ b ∈ (Leaf.insert (l.drop (l.length / 2)) e.1 e.2).2, a.1 < b.1) ∧
    (((l.take (l.length / 2) ++
        (Leaf.insert (l.drop (l.length / 2)) e.1 e.2).2).map Prod.fst).Perm
      ((l.map Prod.fst) ++ [e.1])) ∧
    e ∉ l.take (l.length / 2) ∧
    e ∈ (Leaf.insert (l.drop (l.length / 2)) e.1 e.2).2 ∧
    ¬ (l.drop (l.length / 2) = [] ∨
      ∃ mx, Leaf.max_key (l.take (l.length / 2)) = some mx ∧ e.1 ≤ mx) := by
  push_neg at hc
  obtain ⟨hc1, hc2⟩ := hc
  obtain ⟨hsl, hsh, hcross⟩ := sortedKeys_take_drop (l.length / 2) hs
  have hfl : ∀ x ∈ l.take (l.length / 2), x.1 ≠ e.1 :=
    fun x hx => hfresh x (List.mem_of_mem_take hx)
  have hfh : ∀ x ∈ l.drop (l.length / 2), x.1 ≠ e.1 :=
    fun x hx => hfresh x (List.mem_of_mem_drop hx)
  have hlow_lt : ∀ x ∈ l.take (l.length / 2), x.1 < e.1 := by
    have := min_ge_none.mp (Option.not_isSome_iff_eq_none.mp (by simpa using hc2))
    exact this
  have hroom : (l.drop (l.length / 2)).length < ARRAY_SIZE := by
    rw [List.length_drop]
    simp only [ARRAY_SIZE] at hlen ⊢
    omega
  have h2 : (Leaf.insert (l.drop (l.length / 2)) e.1 e.2).2 =
      Leaf.insertLoc (l.drop (l.length / 2)) e.1 e.2 := by
    rw [Leaf.insert_success hfh hroom]
  rw [h2]
  have helt : e = (e.1, e.2) := rfl
  refine ⟨?_, ?_, ?_, ?_, ?_, ?_⟩
  · rw [insertLoc_length, List.length_take, List.length_drop]
    omega
  · intro a ha b hb
    rcases insertLoc_mem.mp hb with hb' | hb'
    · rw [hb']
      exact hlow_lt a ha
    · exact hcross a ha b hb'
  · have hp : (l.take (l.length / 2) ++
        Leaf.insertLoc (l.drop (l.length / 2)) e.1 e.2).Perm
        (l.take (l.length / 2) ++ ((e.1, e.2) :: l.drop (l.length / 2))) :=
      (insertLoc_perm _ _ _).append_left _
    have hp2 := hp.map Prod.fst
    refine hp2.trans ?_
    simp only [List.map_append, List.map_cons]
    refine List.perm_middle.trans ?_
    rw [← List.map_append, List.take_append_drop]
    exact (List.perm_append_singleton _ _).symm
  · intro hmem
    exact hfl e hmem rfl
  · exact insertLoc_mem.mpr (Or.inl helt)
  · push_neg
    constructor
    · intro hnil
      rw [← List.length_eq_zero] at hnil
      rw [List.length_drop] at hnil
      exact hc1 hnil
    · intro mx hmx
      obtain ⟨v, hv⟩ := max_key_mem hmx
      exact hlow_lt (mx, v) hv

theorem cnt2_eq_zero_iff {l : Leaf K V} :
    l.length - l.length / 2 = 0 ↔ l = [] := by
  rw [← List.length_eq_zero]
  omega

theorem distribute_cnt2_eq_zero_iff {l : Leaf K V} :
    (Leaf.distribute l).2.2 = 0 ↔ l = [] := by
  simp only [Leaf.distribute]
  exact cnt2_eq_zero_iff

/-! ## Claim theorems -/

/-- C1: the claim — every key inserted with `Ok` into a fresh `Node` is
subsequently found by `search` — fails on the code.  `c1Final` inserts
the 25 distinct keys of `c1Keys` into `Node::new(1)`; by construction of
`c1Step` it is `some` only because every insert returned `Ok`, yet
searching the last key (106) afterwards reports not-found: the leaf
split below the root reported `Full`, and `handle_result`'s `[TODO]`
stub turned that into `Ok` while dropping the entry. -/
theorem C1_ok_insert_lost :
    c1Final.isSome = true ∧
    (c1Final.bind (fun n => (Node.search 20 n 106).map (fun o => o.isSome))) =
      some false := by
  constructor
  · decide
  · decide

/-- C2: `handle_result` propagates `Ok` as `Ok` and `Duplicated`/`Retry`
unchanged, but on `Full` it does not perform a split-and-relink step: it
is a `[TODO]` stub that returns `Ok(())`, discarding the outcome — the
final conjunct documents the divergence from the claim. -/
theorem C2_handle_result_normalization :
    ∀ (e r d : K × V) (mk : Option K) (c : Option (Node K V)),
      Node.handle_result (K := K) (V := V) .ok c = .ok ∧
      Node.handle_result (.err (.Duplicated d)) c = .err (.Duplicated d) ∧
      Node.handle_result (.err (.Retry r)) c = .err (.Retry r) ∧
      Node.handle_result (.err (.Full e mk)) c = .ok := by
  intro e r d mk c
  exact ⟨rfl, rfl, rfl, rfl⟩

/-- C3: when the compare-and-swap claim of either staging slot fails
(the slot is non-null), `split_leaf` returns `Retry` carrying exactly
the original overflow entry; the slot the call itself had claimed (the
low one, when the high claim failed) is reset to null, the other slot
keeps its foreign value, and the published bucket array and unbounded
leaf are unchanged. -/
theorem C3_claim_failure_retry [LinearOrder K] :
    ∀ (entry : K × V) (la : Leaf K (Leaf K V)) (uc : Option (Leaf K V))
      (mk : Option K) (rl rh : Option (Leaf K V)),
      rl ≠ none ∨ rh ≠ none →
      ∃ out, Node.split_leaf entry la uc mk rl rh = some out ∧
        out.res = .err (.Retry entry) ∧
        out.bounded = la ∧ out.unbounded = uc ∧ out.rhigh = rh ∧
        (rl = none → out.rlow = none) ∧
        (∀ x, rl = some x → out.rlow = some x) := by
  intro entry la uc mk rl rh h
  rcases rl with _ | x
  · rcases rh with _ | y
    · simp at h
    · refine ⟨_, rfl, rfl, rfl, rfl, rfl, fun _ => rfl, fun z hz => ?_⟩
      simp at hz
  · refine ⟨_, rfl, rfl, rfl, rfl, rfl, fun hz => ?_, fun z hz => ?_⟩
    · simp at hz
    · exact hz

/-- C3 witness: the theorem applied to a concrete failed high-slot
claim. -/
theorem C3_witness :
    ∃ out, Node.split_leaf ((1 : Nat), (1 : Nat)) [] none none none (some []) =
        some out ∧
      out.res = .err (.Retry (1, 1)) ∧
      out.bounded = [] ∧ out.unbounded = none ∧ out.rhigh = some [] ∧
      ((none : Option (Leaf Nat Nat)) = none → out.rlow = none) ∧
      (∀ x, (none : Option (Leaf Nat Nat)) = some x → out.rlow = some x) :=
  C3_claim_failure_retry (1, 1) [] none none none (some [])
    (Or.inr (by simp))

/-- C4 counterexample: a `split_leaf` call that returns `Ok` (a
completed non-degenerate split of the full leaf holding keys 1..8) but
leaves the high staging slot non-null, refuting the claim that both
staging slots are null again whenever the call returns. -/
theorem C4_counterexample :
    (Node.split_leaf ((9 : Nat), (90 : Nat)) [(10, demoFullLeaf)] none (some 10)
        none none).map (fun o => (o.res, o.rhigh.isSome)) =
      some (InsertResult.ok, true) := by
  decide

/-- C4 (amended): after a `split_leaf` call returns, the low staging
slot is null whenever the call returned `Ok`; the high staging slot is
null only on the degenerate `Ok` path (empty full leaf) and still holds
the published high leaf after a non-degenerate `Ok`; on a `Full`
return both slots are left holding the two staged leaves; and a
`Retry` return happens only when a slot was already non-null, the call
releasing any slot it claimed itself and leaving both slots with
exactly their prior values — the foreign non-null value stays in
place. -/
theorem C4_staging_slots_after_return [LinearOrder K] :
    ∀ (entry : K × V) (la : Leaf K (Leaf K V)) (uc : Option (Leaf K V))
      (mk : Option K) (rl rh : Option (Leaf K V)) (out : SplitOut K V),
      Node.split_leaf entry la uc mk rl rh = some out →
      (out.res = .ok → out.rlow = none) ∧
      (out.res = .ok → resolveFullLeaf la uc mk = [] → out.rhigh = none) ∧
      (out.res = .ok → resolveFullLeaf la uc mk ≠ [] →
        out.rhigh = some out.high_staged) ∧
      (∀ e m, out.res = .err (.Full e m) →
        out.rlow = some out.low_staged ∧ out.rhigh = some out.high_staged) ∧
      (∀ e, out.res = .err (.Retry e) →
        out.rlow = rl ∧ out.rhigh = rh ∧ (rl = none → rh ≠ none)) := by
  intro entry la uc mk rl rh out h
  rcases rl with _ | x
  · rcases rh with _ | y
    · simp only [Node.split_leaf] at h
      rcases mk with _ | mkk
      · simp only [Option.some_inj] at h
        subst h
        exact ⟨fun habs => by simp at habs, fun habs => by simp at habs,
          fun habs => by simp at habs, fun e m _ => ⟨rfl, rfl⟩,
          fun e habs => by simp at habs⟩
      · simp only [] at h
        by_cases hplace : (Leaf.distribute (resolveFullLeaf la uc (some mkk))).2.2 = 0 ∨
            (Leaf.min_ge (Leaf.distribute (resolveFullLeaf la uc (some mkk))).1.1
              entry.1).isSome = true
        · rw [if_pos hplace] at h
          simp only [] at h
          by_cases hdeg : (Leaf.distribute (resolveFullLeaf la uc (some mkk))).2.2 = 0
          · rw [if_pos hdeg] at h
            simp only [Option.some_inj] at h
            subst h
            refine ⟨fun _ => rfl, fun _ _ => rfl, fun _ hne => ?_,
              fun e m habs => by simp at habs, fun e habs => by simp at habs⟩
            exact absurd (distribute_cnt2_eq_zero_iff.mp hdeg) hne
          · rw [if_neg hdeg] at h
            split at h
            next heq => cases h
            next mk2 heq =>
              split at h
              next hreg =>
                simp only [Option.some_inj] at h
                subst h
                exact ⟨fun habs => by simp at habs, fun habs => by simp at habs,
                  fun habs => by simp at habs, fun e m _ => ⟨rfl, rfl⟩,
                  fun e habs => by simp at habs⟩
              next hreg =>
                simp only [Option.some_inj] at h
                subst h
                refine ⟨fun _ => rfl, fun _ hnil => ?_, fun _ _ => rfl,
                  fun e m habs => by simp at habs, fun e habs => by simp at habs⟩
                exact absurd (distribute_cnt2_eq_zero_iff.mpr hnil) hdeg
        · rw [if_neg hplace] at h
          simp only [] at h
          have hdeg : ¬ (Leaf.distribute (resolveFullLeaf la uc (some mkk))).2.2 = 0 :=
            fun hc => hplace (Or.inl hc)
          rw [if_neg hdeg] at h
          split at h
          next heq => cases h
          next mk2 heq =>
            split at h
            next hreg =>
              simp only [Option.some_inj] at h
              subst h
              exact ⟨fun habs => by simp at habs, fun habs => by simp at habs,
                fun habs => by simp at habs, fun e m _ => ⟨rfl, rfl⟩,
                fun e habs => by simp at habs⟩
            next hreg =>
              simp only [Option.some_inj] at h
              subst h
              refine ⟨fun _ => rfl, fun _ hnil => ?_, fun _ _ => rfl,
                fun e m habs => by simp at habs, fun e habs => by simp at habs⟩
              exact absurd (distribute_cnt2_eq_zero_iff.mpr hnil) hdeg
    · simp only [Node.split_leaf, Option.some_inj] at h
      subst h
      exact ⟨fun habs => by simp at habs, fun habs => by simp at habs,
        fun habs => by simp at habs, fun e m habs => by simp at habs,
        fun e _ => ⟨rfl, rfl, fun _ hn => nomatch hn⟩⟩
  · simp only [Node.split_leaf, Option.some_inj] at h
    subst h
    exact ⟨fun habs => by simp at habs, fun habs => by simp at habs,
      fun habs => by simp at habs, fun e m habs => by simp at habs,
      fun e _ => ⟨rfl, rfl, fun hn => nomatch hn⟩⟩

/-- C4 witness: the amended theorem applied to the concrete
non-degenerate split of `C4_counterexample`. -/
theorem C4_witness :
    ∃ out, Node.split_leaf ((9 : Nat), (90 : Nat)) [(10, demoFullLeaf)] none
        (some 10) none none = some out ∧
      ((out.res = .ok → out.rlow = none) ∧
       (out.res = .ok →
         resolveFullLeaf [(10, demoFullLeaf)] none (some 10) = [] →
         out.rhigh = none) ∧
       (out.res = .ok →
         resolveFullLeaf [(10, demoFullLeaf)] none (some 10) ≠ [] →
         out.rhigh = some out.high_staged) ∧
       (∀ e m, out.res = .err (.Full e m) →
         out.rlow = some out.low_staged ∧ out.rhigh = some out.high_staged) ∧
       (∀ e, out.res = .err (.Retry e) →
         out.rlow = none ∧ out.rhigh = none ∧
           ((none : Option (Leaf Nat Nat)) = none →
             (none : Option (Leaf Nat Nat)) ≠ none))) :=
  ⟨_, rfl, C4_staging_slots_after_return (9, 90) [(10, demoFullLeaf)] none
    (some 10) none none _ rfl⟩

theorem split_leaf_path [LinearOrder K] :
    ∀ (entry : K × V) (la : Leaf K (Leaf K V)) (uc : Option (Leaf K V))
      (mk : Option K) (rl rh : Option (Leaf K V)) (out : SplitOut K V),
      Node.split_leaf entry la uc mk rl rh = some out →
      (∃ x, rl = some x ∧
        out = ⟨.err (.Retry entry), la, uc, some x, rh, [], [], []⟩) ∨
      (rl = none ∧ ∃ y, rh = some y ∧
        out = ⟨.err (.Retry entry), la, uc, none, some y, [], [],
          [(.staging [], .immediate)]⟩) ∨
      (rl = none ∧ rh = none ∧ mk = none ∧
        out = ⟨.err (.Full entry none), la, uc,
          some (splitLowStaged (resolveFullLeaf la uc mk) entry),
          some (splitHighStaged (resolveFullLeaf la uc mk) entry),
          splitLowStaged (resolveFullLeaf la uc mk) entry,
          splitHighStaged (resolveFullLeaf la uc mk) entry, []⟩) ∨
      (rl = none ∧ rh = none ∧ ∃ k, mk = some k ∧
        (Leaf.distribute (resolveFullLeaf la uc mk)).2.2 = 0 ∧
        out = ⟨.ok,
          updateByKey la k (splitLowStaged (resolveFullLeaf la uc mk) entry), uc,
          none, none,
          splitLowStaged (resolveFullLeaf la uc mk) entry,
          splitHighStaged (resolveFullLeaf la uc mk) entry,
          [(.fullLeaf (resolveFullLeaf la uc mk), .deferred),
           (.sibling (splitHighStaged (resolveFullLeaf la uc mk) entry),
             .immediate)]⟩) ∨
      (rl = none ∧ rh = none ∧ ∃ k mk2, mk = some k ∧
        (Leaf.distribute (resolveFullLeaf la uc mk)).2.2 ≠ 0 ∧
        Leaf.max_key (splitLowStaged (resolveFullLeaf la uc mk) entry) = some mk2 ∧
        (Leaf.insert la mk2
          (splitLowStaged (resolveFullLeaf la uc mk) entry)).1.isSome = true ∧
        out = ⟨.err (.Full entry (some k)), la, uc,
          some (splitLowStaged (resolveFullLeaf la uc mk) entry),
          some (splitHighStaged (resolveFullLeaf la uc mk) entry),
          splitLowStaged (resolveFullLeaf la uc mk) entry,
          splitHighStaged (resolveFullLeaf la uc mk) entry, []⟩) ∨
      (rl = none ∧ rh = none ∧ ∃ k mk2, mk = some k ∧
        (Leaf.distribute (resolveFullLeaf la uc mk)).2.2 ≠ 0 ∧
        Leaf.max_key (splitLowStaged (resolveFullLeaf la uc mk) entry) = some mk2 ∧
        (Leaf.insert la mk2
          (splitLowStaged (resolveFullLeaf la uc mk) entry)).1.isSome = false ∧
        out = ⟨.ok,
          updateByKey (Leaf.insert la mk2
              (splitLowStaged (resolveFullLeaf la uc mk) entry)).2 k
            (splitHighStaged (resolveFullLeaf la uc mk) entry), uc,
          none, some (splitHighStaged (resolveFullLeaf la uc mk) entry),
          splitLowStaged (resolveFullLeaf la uc mk) entry,
          splitHighStaged (resolveFullLeaf la uc mk) entry,
          [(.fullLeaf (resolveFullLeaf la uc mk), .deferred)]⟩) := by
  intro entry la uc mk rl rh out h
  rcases rl with _ | x
  · rcases rh with _ | y
    · simp only [Node.split_leaf] at h
      rcases mk with _ | mkk
      · simp only [Option.some_inj] at h
        subst h
        refine Or.inr (Or.inr (Or.inl ⟨rfl, rfl, rfl, ?_⟩))
        simp only [splitLowStaged, splitHighStaged]
        by_cases hplace : (Leaf.distribute (resolveFullLeaf la uc none)).2.2 = 0 ∨
            (Leaf.min_ge (Leaf.distribute (resolveFullLeaf la uc none)).1.1
              entry.1).isSome = true
        · simp only [if_pos hplace]
        · simp only [if_neg hplace]
      · simp only [] at h
        by_cases hplace : (Leaf.distribute (resolveFullLeaf la uc (some mkk))).2.2 = 0 ∨
            (Leaf.min_ge (Leaf.distribute (resolveFullLeaf la uc (some mkk))).1.1
              entry.1).isSome = true
        · rw [if_pos hplace] at h
          simp only [] at h
          have hlow : splitLowStaged (resolveFullLeaf la uc (some mkk)) entry =
              (Leaf.insert (Leaf.distribute (resolveFullLeaf la uc (some mkk))).1.1
                entry.1 entry.2).2 := by
            simp only [splitLowStaged, if_pos hplace]
          have hhigh : splitHighStaged (resolveFullLeaf la uc (some mkk)) entry =
              (Leaf.distribute (resolveFullLeaf la uc (some mkk))).1.2 := by
            simp only [splitHighStaged, if_pos hplace]
          by_cases hdeg : (Leaf.distribute (resolveFullLeaf la uc (some mkk))).2.2 = 0
          · rw [if_pos hdeg] at h
            simp only [Option.some_inj] at h
            subst h
            refine Or.inr (Or.inr (Or.inr (Or.inl ⟨rfl, rfl, mkk, rfl, hdeg, ?_⟩)))
            rw [hlow, hhigh]
          · rw [if_neg hdeg] at h
            split at h
            next heq => cases h
            next mk2 heq =>
              split at h
              next hreg =>
                simp only [Option.some_inj] at h
                subst h
                refine Or.inr (Or.inr (Or.inr (Or.inr (Or.inl
                  ⟨rfl, rfl, mkk, mk2, rfl, hdeg, ?_, ?_, ?_⟩))))
                · rw [hlow]; exact heq
                · rw [hlow]; exact hreg
                · rw [hlow, hhigh]
              next hreg =>
                simp only [Option.some_inj] at h
                subst h
                refine Or.inr (Or.inr (Or.inr (Or.inr (Or.inr
                  ⟨rfl, rfl, mkk, mk2, rfl, hdeg, ?_, ?_, ?_⟩))))
                · rw [hlow]; exact heq
                · rw [hlow]
                  exact Bool.not_eq_true _ ▸ (by simpa using hreg)
                · rw [hlow, hhigh]
        · rw [if_neg hplace] at h
          simp only [] at h
          have hdeg : ¬ (Leaf.distribute (resolveFullLeaf la uc (some mkk))).2.2 = 0 :=
            fun hc => hplace (Or.inl hc)
          have hlow : splitLowStaged (resolveFullLeaf la uc (some mkk)) entry =
              (Leaf.distribute (resolveFullLeaf la uc (some mkk))).1.1 := by
            simp only [splitLowStaged, if_neg hplace]
          have hhigh : splitHighStaged (resolveFullLeaf la uc (some mkk)) entry =
              (Leaf.insert (Leaf.distribute (resolveFullLeaf la uc (some mkk))).1.2
                entry.1 entry.2).2 := by
            simp only [splitHighStaged, if_neg hplace]
          rw [if_neg hdeg] at h
          split at h
          next heq => cases h
          next mk2 heq =>
            split at h
            next hreg =>
              simp only [Option.some_inj] at h
              subst h
              refine Or.inr (Or.inr (Or.inr (Or.inr (Or.inl
                ⟨rfl, rfl, mkk, mk2, rfl, hdeg, ?_, ?_, ?_⟩))))
              · rw [hlow]; exact heq
              · rw [hlow]; exact hreg
              · rw [hlow, hhigh]
            next hreg =>
              simp only [Option.some_inj] at h
              subst h
              refine Or.inr (Or.inr (Or.inr (Or.inr (Or.inr
                ⟨rfl, rfl, mkk, mk2, rfl, hdeg, ?_, ?_, ?_⟩))))
              · rw [hlow]; exact heq
              · rw [hlow]
                exact Bool.not_eq_true _ ▸ (by simpa using hreg)
              · rw [hlow, hhigh]
    · simp only [Node.split_leaf, Option.some_inj] at h
      subst h
      exact Or.inr (Or.inl ⟨rfl, y, rfl, rfl⟩)
  · simp only [Node.split_leaf, Option.some_inj] at h
    subst h
    exact Or.inl ⟨x, rfl, rfl⟩

theorem splitStaged_spec [LinearOrder K] {l : Leaf K V} {e : K × V}
    (hs : sortedKeys l = true) (hlen : l.length ≤ ARRAY_SIZE)
    (hfresh : ∀ x ∈ l, x.1 ≠ e.1) :
    (splitLowStaged l e).length + (splitHighStaged l e).length = l.length + 1 ∧
    (∀ a ∈ splitLowStaged l e, ∀ b ∈ splitHighStaged l e, a.1 < b.1) ∧
    (((splitLowStaged l e ++ splitHighStaged l e).map Prod.fst).Perm
      ((l.map Prod.fst) ++ [e.1])) ∧
    (e ∈ splitLowStaged l e ∨ e ∈ splitHighStaged l e) ∧
    ((e ∈ splitLowStaged l e ∧ e ∉ splitHighStaged l e) ↔
      ((Leaf.distribute l).1.2 = [] ∨
       ∃ mx, Leaf.max_key (Leaf.distribute l).1.1 = some mx ∧ e.1 ≤ mx)) := by
  by_cases hc : (Leaf.distribute l).2.2 = 0 ∨
      (Leaf.min_ge (Leaf.distribute l).1.1 e.1).isSome = true
  · have hc' : l.length - l.length / 2 = 0 ∨
        (Leaf.min_ge (l.take (l.length / 2)) e.1).isSome = true := hc
    obtain ⟨h1, h2, h3, h4, h5, h6⟩ := place_low_spec hs hlen hfresh hc'
    simp only [splitLowStaged, splitHighStaged, if_pos hc]
    exact ⟨h1, h2, h3, Or.inl h4, ⟨fun _ => h6, fun _ => ⟨h4, h5⟩⟩⟩
  · have hc' : ¬ (l.length - l.length / 2 = 0 ∨
        (Leaf.min_ge (l.take (l.length / 2)) e.1).isSome = true) := hc
    obtain ⟨h1, h2, h3, h4, h5, h6⟩ := place_high_spec hs hlen hfresh hc'
    simp only [splitLowStaged, splitHighStaged, if_neg hc]
    exact ⟨h1, h2, h3, Or.inr h5, ⟨fun hl => absurd hl.1 h4, fun hr => absurd hr h6⟩⟩

/-- C5: a leaf split that completes with `Ok` conserves entries — the
two staged leaves together hold every entry of the original full leaf
plus the overflow entry (counts add up to the original count plus one),
their key ranges are disjoint (every low key is below every high key)
and together cover exactly the original keys plus the overflow key, and
the overflow entry lands in the low leaf exactly when the freshly
distributed high leaf is empty or the key is at most the low leaf's max
key, else in the high leaf. -/
theorem C5_split_ok_conservation [LinearOrder K] :
    ∀ (entry : K × V) (la : Leaf K (Leaf K V)) (uc : Option (Leaf K V))
      (mk : Option K) (rl rh : Option (Leaf K V)) (out : SplitOut K V),
      Node.split_leaf entry la uc mk rl rh = some out →
      out.res = .ok →
      sortedKeys (resolveFullLeaf la uc mk) = true →
      (resolveFullLeaf la uc mk).length ≤ ARRAY_SIZE →
      (∀ x ∈ resolveFullLeaf la uc mk, x.1 ≠ entry.1) →
      out.low_staged.length + out.high_staged.length =
        (resolveFullLeaf la uc mk).length + 1 ∧
      (∀ a ∈ out.low_staged, ∀ b ∈ out.high_staged, a.1 < b.1) ∧
      (((out.low_staged ++ out.high_staged).map Prod.fst).Perm
        (((resolveFullLeaf la uc mk).map Prod.fst) ++ [entry.1])) ∧
      (entry ∈ out.low_staged ∨ entry ∈ out.high_staged) ∧
      ((entry ∈ out.low_staged ∧ entry ∉ out.high_staged) ↔
        ((Leaf.distribute (resolveFullLeaf la uc mk)).1.2 = [] ∨
         ∃ mx, Leaf.max_key (Leaf.distribute (resolveFullLeaf la uc mk)).1.1 =
             some mx ∧ entry.1 ≤ mx)) := by
  intro entry la uc mk rl rh out h hres hs hlen hfresh
  rcases split_leaf_path entry la uc mk rl rh out h with
    ⟨x, hx, hout⟩ | ⟨hrl, y, hy, hout⟩ | ⟨hrl, hrh, hmk, hout⟩ |
    ⟨hrl, hrh, k, hmk, hdeg, hout⟩ | ⟨hrl, hrh, k, mk2, hmk, hdeg, hmax, hreg, hout⟩ |
    ⟨hrl, hrh, k, mk2, hmk, hdeg, hmax, hreg, hout⟩
  · subst hout; simp at hres
  · subst hout; simp at hres
  · subst hout; simp at hres
  · subst hout
    exact splitStaged_spec hs hlen hfresh
  · subst hout; simp at hres
  · subst hout
    exact splitStaged_spec hs hlen hfresh

/-- C5 witness: the theorem applied to the concrete non-degenerate split
of the full leaf holding keys 1..8 with overflow entry (9, 90). -/
theorem C5_witness :
    ∃ out, Node.split_leaf ((9 : Nat), (90 : Nat)) [(10, demoFullLeaf)] none
        (some 10) none none = some out ∧
      (out.low_staged.length + out.high_staged.length =
        (resolveFullLeaf [(10, demoFullLeaf)] none (some 10)).length + 1 ∧
      (∀ a ∈ out.low_staged, ∀ b ∈ out.high_staged, a.1 < b.1) ∧
      (((out.low_staged ++ out.high_staged).map Prod.fst).Perm
        (((resolveFullLeaf [(10, demoFullLeaf)] none (some 10)).map Prod.fst) ++ [9])) ∧
      ((9, 90) ∈ out.low_staged ∨ (9, 90) ∈ out.high_staged) ∧
      (((9, 90) ∈ out.low_staged ∧ (9, 90) ∉ out.high_staged) ↔
        ((Leaf.distribute (resolveFullLeaf [(10, demoFullLeaf)] none (some 10))).1.2 = [] ∨
         ∃ mx, Leaf.max_key
             (Leaf.distribute (resolveFullLeaf [(10, demoFullLeaf)] none (some 10))).1.1 =
             some mx ∧ 9 ≤ mx))) :=
  ⟨_, rfl, C5_split_ok_conservation (9, 90) [(10, demoFullLeaf)] none (some 10)
    none none _ rfl rfl (by decide) (by decide) (by decide)⟩

/-- C6: `split_leaf` reports `Full` exactly in two situations, always
carrying the original overflow entry and upper bound: unconditionally
when the full leaf is the unbounded slot (null upper bound), once both
staging slots were claimed; and for a bounded slot when registering the
low leaf in the bucket array fails — which, when the low leaf's max key
does not collide with an existing bucket key, happens exactly for lack
of room (`leaf_array` full). -/
theorem C6_full_cases [LinearOrder K] :
    ∀ (entry : K × V) (la : Leaf K (Leaf K V)) (uc : Option (Leaf K V))
      (mk : Option K) (rl rh : Option (Leaf K V)) (out : SplitOut K V),
      Node.split_leaf entry la uc mk rl rh = some out →
      ((∀ e m, out.res = .err (.Full e m) →
          e = entry ∧ m = mk ∧ rl = none ∧ rh = none) ∧
       (rl = none → rh = none → mk = none → out.res = .err (.Full entry none)) ∧
       (∀ k, rl = none → rh = none → mk = some k →
          (∀ m2, Leaf.max_key out.low_staged = some m2 → ∀ b ∈ la, b.1 ≠ m2) →
          out.res = .err (.Full entry (some k)) → Leaf.full la = true) ∧
       (∀ k, rl = none → rh = none → mk = some k → Leaf.full la = true →
          resolveFullLeaf la uc mk ≠ [] →
          out.res = .err (.Full entry (some k)))) := by
  intro entry la uc mk rl rh out h
  rcases split_leaf_path entry la uc mk rl rh out h with
    ⟨x, hx, hout⟩ | ⟨hrl, y, hy, hout⟩ | ⟨hrl, hrh, hmk, hout⟩ |
    ⟨hrl, hrh, k0, hmk, hdeg, hout⟩ | ⟨hrl, hrh, k0, mk2, hmk, hdeg, hmax, hreg, hout⟩ |
    ⟨hrl, hrh, k0, mk2, hmk, hdeg, hmax, hreg, hout⟩
  · subst hout
    refine ⟨?_, ?_, ?_, ?_⟩
    · intro e m habs; simp at habs
    · intro hrl2; rw [hx] at hrl2; cases hrl2
    · intro k hrl2; rw [hx] at hrl2; cases hrl2
    · intro k hrl2; rw [hx] at hrl2; cases hrl2
  · subst hout
    refine ⟨?_, ?_, ?_, ?_⟩
    · intro e m habs; simp at habs
    · intro _ hrh2; rw [hy] at hrh2; cases hrh2
    · intro k _ hrh2; rw [hy] at hrh2; cases hrh2
    · intro k _ hrh2; rw [hy] at hrh2; cases hrh2
  · subst hout
    subst hmk
    refine ⟨?_, ?_, ?_, ?_⟩
    · intro e m habs
      simp only [InsertResult.err.injEq, Error.Full.injEq] at habs
      exact ⟨habs.1.symm, habs.2.symm, hrl, hrh⟩
    · intro _ _ _; rfl
    · intro k _ _ hk; cases hk
    · intro k _ _ hk; cases hk
  · subst hout
    subst hmk
    refine ⟨?_, ?_, ?_, ?_⟩
    · intro e m habs; simp at habs
    · intro _ _ hmk2; cases hmk2
    · intro k _ _ hk hnodup habs; simp at habs
    · intro k _ _ hk hfull hne
      exact absurd (distribute_cnt2_eq_zero_iff.mp hdeg) hne
  · subst hout
    subst hmk
    refine ⟨?_, ?_, ?_, ?_⟩
    · intro e m habs
      simp only [InsertResult.err.injEq, Error.Full.injEq] at habs
      exact ⟨habs.1.symm, habs.2.symm, hrl, hrh⟩
    · intro _ _ hmk2; cases hmk2
    · intro k _ _ hk hnodup _
      rcases Leaf.insert_fails_iff.mp hreg with hdup | hfull
      · exfalso
        simp only [List.any_eq_true, decide_eq_true_eq] at hdup
        obtain ⟨b, hb, hbk⟩ := hdup
        injection hk with hk2
        subst hk2
        exact hnodup mk2 hmax b hb hbk
      · exact hfull
    · intro k _ _ hk hfull hne
      injection hk with hk2
      subst hk2
      rfl
  · subst hout
    subst hmk
    refine ⟨?_, ?_, ?_, ?_⟩
    · intro e m habs; simp at habs
    · intro _ _ hmk2; cases hmk2
    · intro k _ _ hk hnodup habs; simp at habs
    · intro k _ _ hk hfull hne
      exfalso
      have hx2 : (Leaf.insert la mk2
          (splitLowStaged (resolveFullLeaf la uc (some k0)) entry)).1.isSome = true :=
        Leaf.insert_fails_iff.mpr (Or.inr hfull)
      rw [hreg] at hx2
      cases hx2

/-- C6 witness: the theorem's unbounded-slot clause applied to the
concrete split of a full unbounded leaf (yields `Full(entry, None)`),
after both staging-slot claims succeeded. -/
theorem C6_witness :
    ∃ out, Node.split_leaf ((9 : Nat), (90 : Nat)) [] (some demoFullLeaf) none
        none none = some out ∧
      out.res = .err (.Full (9, 90) none) :=
  ⟨_, rfl, (C6_full_cases (9, 90) [] (some demoFullLeaf) none none none _ rfl).2.1
    rfl rfl rfl⟩

/-- C7 counterexample: a `split_leaf` call that completes with `Ok` (a
degenerate split) and whose destruction trace contains a retirement that
was NOT deferred — the unused sibling leaf is dropped synchronously —
refuting the claim that every pointer retired during a completed leaf
split is scheduled via deferred destruction. -/
theorem C7_counterexample :
    (Node.split_leaf ((5 : Nat), (50 : Nat)) [(10, ([] : Leaf Nat Nat))] none
        (some 10) none none).map
      (fun o => (o.res, o.events.all (fun ev => ev.2 = DestroyMode.deferred))) =
      some (InsertResult.ok, false) := by
  decide

/-- C7 (amended): in every `split_leaf` call that completes with `Ok`,
the superseded full leaf is retired via `defer_destroy` (never
synchronously), but the unused sibling leaf of a degenerate split is
not deferred — it is freed synchronously, by reclaiming ownership from
the staging slot and dropping it, at unlink time. -/
theorem C7_destruction_modes [LinearOrder K] :
    ∀ (entry : K × V) (la : Leaf K (Leaf K V)) (uc : Option (Leaf K V))
      (mk : Option K) (rl rh : Option (Leaf K V)) (out : SplitOut K V),
      Node.split_leaf entry la uc mk rl rh = some out →
      out.res = .ok →
      ((Destroyed.fullLeaf (resolveFullLeaf la uc mk), DestroyMode.deferred) ∈
          out.events ∧
       (∀ l dm, (Destroyed.fullLeaf l, dm) ∈ out.events → dm = .deferred) ∧
       (∀ l dm, (Destroyed.sibling l, dm) ∈ out.events → dm = .immediate)) := by
  intro entry la uc mk rl rh out h hres
  rcases split_leaf_path entry la uc mk rl rh out h with
    ⟨x, hx, hout⟩ | ⟨hrl, y, hy, hout⟩ | ⟨hrl, hrh, hmk, hout⟩ |
    ⟨hrl, hrh, k0, hmk, hdeg, hout⟩ | ⟨hrl, hrh, k0, mk2, hmk, hdeg, hmax, hreg, hout⟩ |
    ⟨hrl, hrh, k0, mk2, hmk, hdeg, hmax, hreg, hout⟩
  · subst hout; simp at hres
  · subst hout; simp at hres
  · subst hout; simp at hres
  · subst hout
    refine ⟨by simp, ?_, ?_⟩
    · intro l dm hm
      simp only [List.mem_cons, List.not_mem_nil, or_false, Prod.mk.injEq] at hm
      rcases hm with ⟨_, hdm⟩ | ⟨habs, _⟩
      · exact hdm
      · cases habs
    · intro l dm hm
      simp only [List.mem_cons, List.not_mem_nil, or_false, Prod.mk.injEq] at hm
      rcases hm with ⟨habs, _⟩ | ⟨_, hdm⟩
      · cases habs
      · exact hdm
  · subst hout; simp at hres
  · subst hout
    refine ⟨by simp, ?_, ?_⟩
    · intro l dm hm
      simp only [List.mem_cons, List.not_mem_nil, or_false, Prod.mk.injEq] at hm
      exact hm.2
    · intro l dm hm
      simp only [List.mem_cons, List.not_mem_nil, or_false, Prod.mk.injEq] at hm
      cases hm.1

/-- C7 witness: the amended theorem applied to the concrete degenerate
split of `C7_counterexample`. -/
theorem C7_witness :
    ∃ out, Node.split_leaf ((5 : Nat), (50 : Nat)) [(10, ([] : Leaf Nat Nat))] none
        (some 10) none none = some out ∧
      ((Destroyed.fullLeaf (resolveFullLeaf [(10, ([] : Leaf Nat Nat))] none (some 10)),
          DestroyMode.deferred) ∈ out.events ∧
       (∀ l dm, (Destroyed.fullLeaf l, dm) ∈ out.events → dm = .deferred) ∧
       (∀ l dm, (Destroyed.sibling l, dm) ∈ out.events → dm = .immediate)) :=
  ⟨_, rfl, C7_destruction_modes (5, 50) [(10, ([] : Leaf Nat Nat))] none (some 10)
    none none _ rfl rfl⟩

/-- C8: `Node::search` returns a scanner only on an exact match — any
`some` scanner returned by `search` is positioned on an entry whose key
equals the searched key and which is stored in the tree — and at a node
where no bounded bucket covers the key and the unbounded child is null
it reports not-found. -/
theorem C8_search_exact_match [LinearOrder K] :
    (∀ (fuel : Nat) (n : Node K V) (key : K) (sc : LeafNodeScanner K V),
      Node.search fuel n key = some (some sc) →
      ∃ v, LeafNodeScanner.get sc = some (key, v) ∧
        (key, v) ∈ Node.entriesF fuel n) ∧
    (∀ (n : Node K V) (key : K) (fuel : Nat), noRoute n key = true →
      Node.search (fuel + 1) n key = some none) :=
  ⟨search_sound, fun _ _ fuel h => search_noRoute h fuel⟩

/-- C8 witness: the theorem applied to a concrete search hit on
`demoNode` and to a concrete no-route search on a fresh internal node. -/
theorem C8_witness :
    (∃ sc : LeafNodeScanner Nat Nat, Node.search 1 demoNode 3 = some (some sc) ∧
      ∃ v, LeafNodeScanner.get sc = some (3, v) ∧ (3, v) ∈ Node.entriesF 1 demoNode) ∧
    Node.search 1 (Node.new 1 : Node Nat Nat) 5 = some none := by
  constructor
  · have hs : (Node.search 1 demoNode 3).map (fun o => o.isSome) = some true := by
      decide
    cases hsr : Node.search 1 demoNode 3 with
    | none => rw [hsr] at hs; cases hs
    | some o =>
      cases o with
      | none => rw [hsr] at hs; simp at hs
      | some sc => exact ⟨sc, rfl, C8_search_exact_match.1 1 demoNode 3 sc hsr⟩
  · exact C8_search_exact_match.2 (Node.new 1) 5 0 (by decide)

/-- C9 counterexample: a scanner positioned by `Node::search` does not
advance through the remaining bounded buckets or the unbounded child:
on `demoNode`, the scanner positioned at key 1 yields only the rest of
its current leaf (entry (2,20)) and then ends, although entry (3,30)
lives in the next bucket — refuting the claim for search-positioned
scanners. -/
theorem C9_counterexample :
    (Node.search 1 demoNode 1).map
      (fun o => o.map (fun sc => LeafNodeScanner.run 10 sc)) =
      some (some [(2, 20)]) ∧ (3, 30) ∈ flatEntries demoNode := by
  constructor
  · decide
  · decide

/-- C9 (amended): a `LeafNodeScanner` created by `new` on a well-formed
`LeafNode` yields exactly the node's logical sequence — the current
leaf, then the bounded buckets in order, finally the unbounded child —
with strictly ascending keys, and every yielded entry is found by an
independent `Node::search`; a scanner positioned by `search`, by
contrast, drains only its current leaf and then ends. -/
theorem C9_new_scanner_complete [LinearOrder K] :
    ∀ (bc : Leaf K (Leaf K V)) (uc : Option (Leaf K V)) (rl rh : Option (Leaf K V))
      (f fuel : Nat),
      wfLN (Node.leafNode bc uc rl rh f) = true →
      (flatEntries (Node.leafNode bc uc rl rh f)).length < fuel →
      LeafNodeScanner.run fuel (LeafNodeScanner.new (Node.leafNode bc uc rl rh f)) =
        flatEntries (Node.leafNode bc uc rl rh f) ∧
      sortedKeys (flatEntries (Node.leafNode bc uc rl rh f)) = true ∧
      (∀ e ∈ flatEntries (Node.leafNode bc uc rl rh f), ∀ sf : Nat,
        ∃ sc, Node.search (sf + 1) (Node.leafNode bc uc rl rh f) e.1 =
            some (some sc) ∧ LeafNodeScanner.get sc = some e) := by
  intro bc uc rl rh f fuel hwf hfuel
  refine ⟨?_, wf_flat_sorted hwf, fun e he sf => wf_search_found hwf he sf⟩
  have hp : LeafNodeScanner.pending
      (LeafNodeScanner.new (Node.leafNode bc uc rl rh f)) =
      flatEntries (Node.leafNode bc uc rl rh f) := rfl
  rw [run_pending fuel _ rfl (by rw [hp]; exact hfuel), hp]

/-- C9 witness: the amended theorem applied to `demoNode` (two buckets
plus a populated unbounded leaf, five entries, fuel 6). -/
theorem C9_witness :
    LeafNodeScanner.run 6 (LeafNodeScanner.new demoNode) = flatEntries demoNode ∧
    sortedKeys (flatEntries demoNode) = true ∧
    (∀ e ∈ flatEntries demoNode, ∀ sf : Nat,
      ∃ sc, Node.search (sf + 1) demoNode e.1 = some (some sc) ∧
        LeafNodeScanner.get sc = some e) :=
  C9_new_scanner_complete [(2, [(1, 10), (2, 20)]), (4, [(3, 30), (4, 40)])]
    (some [(7, 70)]) none none 0 6 (by decide) (by decide)

/-- C10: `Node::new(floor)` builds an `InternalNode` exactly when
`floor > 0` (a `LeafNode` exactly at floor 0, and the stored floor is
the argument); a fresh node satisfies the floor-consistency invariant
`floorsOk` (children one floor lower all the way down), `insert`
preserves it — every child it materializes is created with
`self.floor - 1` — and under the invariant every node reachable at
depth `d` below a root of floor `g` has floor `g - d` and is internal
exactly above the leaf level, so descent terminates at a `LeafNode`. -/
theorem C10_floor_discipline [LinearOrder K] :
    (∀ f : Nat, (Node.new (K := K) (V := V) f).isInternal = decide (0 < f) ∧
      (Node.new (K := K) (V := V) f).floorOf = f) ∧
    (∀ g : Nat, floorsOk (K := K) (V := V) g (Node.new g) = true) ∧
    (∀ (fuel g : Nat) (n : Node K V) (key : K) (value : V) (res : InsertResult K V)
        (n' : Node K V), floorsOk g n = true →
        Node.insert fuel n key value = some (res, n') → floorsOk g n' = true) ∧
    (∀ (p : List Dir) (g : Nat) (n m : Node K V),
        floorsOk g n = true → Node.reachAt n p = some m →
        m.floorOf + p.length = g ∧ (m.isInternal = true ↔ p.length < g)) := by
  refine ⟨?_, floorsOk_new, insert_preserves_floorsOk, reachAt_floors⟩
  intro f
  cases f with
  | zero => exact ⟨rfl, rfl⟩
  | succ f =>
    constructor
    · rw [Node.new, if_pos (Nat.succ_pos f)]
      simp [Node.isInternal]
    · rw [Node.new, if_pos (Nat.succ_pos f)]
      rfl

/-- C10 witness: the theorem applied to a concrete insert into
`Node::new(1)` and a concrete zero-length descent from `Node::new(2)`. -/
theorem C10_witness :
    (∃ res : InsertResult Nat Nat, ∃ n' : Node Nat Nat,
      Node.insert 5 (Node.new 1) 3 30 = some (res, n') ∧ floorsOk 1 n' = true) ∧
    ((Node.new 2 : Node Nat Nat).floorOf + ([] : List Dir).length = 2 ∧
      ((Node.new 2 : Node Nat Nat).isInternal = true ↔ ([] : List Dir).length < 2)) := by
  constructor
  · have hs : (Node.insert 5 (Node.new 1 : Node Nat Nat) 3 30).isSome = true := by
      decide
    cases hins : Node.insert 5 (Node.new 1 : Node Nat Nat) 3 30 with
    | none => rw [hins] at hs; cases hs
    | some p =>
      exact ⟨p.1, p.2, rfl,
        C10_floor_discipline.2.2.1 5 1 (Node.new 1) 3 30 p.1 p.2 (by decide) hins⟩
  · exact C10_floor_discipline.2.2.2 [] 2 (Node.new 2) (Node.new 2) (by decide) rfl
